import Mathlib

set_option maxRecDepth 40000

/-!
# Verification of the fidesinnova / jolt-style commit-prove-verify pipeline

This file gives a shallow embedding, in Lean 4, of the proof-system core of
the repository (files `Ver_2/fidesinnova.cpp`, `Ver_2/jolt_style_gdb.cpp` and
`Ver_2/kzg_mcl.hpp`), and proves or refutes the frozen claims about it.

Modelling conventions:

* The scalar field `Fr` of BN254 is `ZMod P` with
  `P = 21888242871839275222246405745257275088548364400416034343698204186575808495617`,
  the order of the BN254 subgroups.  We prove `P` prime below (Lucas/Pratt
  certificates) so that `Fr` is a field, as the mcl library guarantees.
* The groups `G1`, `G2` are cyclic of prime order `P`, generated by the
  hash-derived generators of the source (`mapToG1`, `mapToG2`).  A group
  element is represented by its discrete logarithm with respect to that
  generator, an element of `Fr`; point addition becomes `+`, scalar
  multiplication becomes `*`, the identity (`clear()`) becomes `0`.  This
  representation is exact for a cyclic group of prime order `P`.
* The pairing lands in the order-`P` cyclic subgroup of `GT` generated by
  the pairing of the two generators (nondegeneracy); equality of two pairing
  values is equality of the products of the exponents, which is how the
  pairing-equation checks are modelled.
* Machine integers are `Nat` with explicit reductions (`% 2 ^ 32`, `% 2 ^ 64`)
  where the C++ code can overflow or truncate.
* Byte strings are `List Nat` whose entries are bytes (`< 256`).
* Fallible code (C++ `throw`) is modelled with `Option` / an explicit
  result type.
* The source's field-element serialization (mcl) is the 32-byte
  little-endian form of the canonical representative, as stated by the
  repository spec (§6); group serialization is modelled as a deterministic
  32-byte encoding of the exponent.  All claims settled here are insensitive
  to the exact injection chosen for group-element bytes.
-/

/-- The order of the BN254 (alt_bn128) G1/G2 subgroups: the characteristic of
the scalar field `Fr` used throughout the repository. -/
def P : ℕ := 21888242871839275222246405745257275088548364400416034343698204186575808495617

/-! ## Executable modular exponentiation, used for the primality certificates -/

/-- Fuel-driven square-and-multiply modular exponentiation.
`powModF m b fuel e = b ^ e % m` whenever `e < 2 ^ fuel`. -/
def powModF (m b : ℕ) : ℕ → ℕ → ℕ
  | 0, _ => 1 % m
  | fuel + 1, e =>
    if e = 0 then 1 % m
    else
      let h := powModF m (b * b % m) fuel (e / 2)
      if e % 2 = 1 then b * h % m else h

theorem powModF_eq (m : ℕ) : ∀ (fuel : ℕ) (b e : ℕ), e < 2 ^ fuel →
    powModF m b fuel e = b ^ e % m := by
  intro fuel
  induction fuel with
  | zero =>
    intro b e he
    have h0 : e = 0 := by simpa using he
    subst h0
    simp [powModF]
  | succ f ih =>
    intro b e he
    by_cases h0 : e = 0
    · subst h0; simp [powModF]
    · have he2 : e / 2 < 2 ^ f := by
        rw [pow_succ] at he; omega
      have hrec := ih (b * b % m) (e / 2) he2
      have hpows : (b * b % m) ^ (e / 2) % m = (b * b) ^ (e / 2) % m :=
        (Nat.pow_mod (b * b) (e / 2) m).symm
      by_cases hp : e % 2 = 1
      · have hee : e = 2 * (e / 2) + 1 := by omega
        have hmul : b * ((b * b) ^ (e / 2) % m) % m = b * (b * b) ^ (e / 2) % m :=
          Nat.ModEq.mul_left b (Nat.mod_modEq _ m)
        have hpow2 : b ^ e = b * (b * b) ^ (e / 2) := by
          conv_lhs => rw [hee]
          rw [pow_succ, pow_mul, pow_two, mul_comm]
        simp only [powModF, if_neg h0, if_pos hp]
        rw [hrec, hpows, hmul, hpow2]
      · have hee : e = 2 * (e / 2) := by omega
        have hpow2 : b ^ e = (b * b) ^ (e / 2) := by
          conv_lhs => rw [hee]
          rw [pow_mul, pow_two]
        simp only [powModF, if_neg h0, if_neg hp]
        rw [hrec, hpows, hpow2]

theorem powModF_lt (m : ℕ) (hm : 0 < m) : ∀ (fuel : ℕ) (b e : ℕ), powModF m b fuel e < m := by
  intro fuel
  induction fuel with
  | zero => intro b e; simp only [powModF]; exact Nat.mod_lt _ hm
  | succ f ih =>
    intro b e
    by_cases h0 : e = 0
    · simp only [powModF, if_pos h0]; exact Nat.mod_lt _ hm
    · by_cases hp : e % 2 = 1
      · simp only [powModF, if_neg h0, if_pos hp]; exact Nat.mod_lt _ hm
      · simp only [powModF, if_neg h0, if_neg hp]; exact ih _ _

theorem zmod_pow_powModF (p g fuel e : ℕ) (h : e < 2 ^ fuel) :
    ((g : ZMod p)) ^ e = ((powModF p g fuel e : ℕ) : ZMod p) := by
  rw [powModF_eq p fuel g e h, ZMod.natCast_mod, Nat.cast_pow]

/-- Lucas primality certificate driver: a witness `g` of full multiplicative
order modulo `p`, together with a covering list of the prime divisors of
`p - 1`, certifies primality of `p`. -/
theorem lucas_cert (p g : ℕ) (hp : 1 < p) (hsize : p - 1 < 2 ^ 300)
    (h1 : powModF p g 300 (p - 1) = 1 % p)
    (factors : List ℕ)
    (hcover : ∀ q : ℕ, q.Prime → q ∣ p - 1 → q ∈ factors)
    (hne : ∀ q ∈ factors, powModF p g 300 ((p - 1) / q) ≠ 1 % p) :
    p.Prime := by
  refine lucas_primality p (g : ZMod p) ?_ ?_
  · rw [zmod_pow_powModF p g 300 _ hsize, h1, ZMod.natCast_mod, Nat.cast_one]
  · intro q hq hdvd
    have hmem := hcover q hq hdvd
    have hle : (p - 1) / q ≤ p - 1 := Nat.div_le_self _ _
    rw [zmod_pow_powModF p g 300 _ (lt_of_le_of_lt hle hsize)]
    intro hcontra
    apply hne q hmem
    have h1cast : ((1 % p : ℕ) : ZMod p) = 1 := by rw [ZMod.natCast_mod, Nat.cast_one]
    rw [← h1cast] at hcontra
    have hv1 : ((powModF p g 300 ((p - 1) / q) : ℕ) : ZMod p).val
        = powModF p g 300 ((p - 1) / q) :=
      ZMod.val_cast_of_lt (powModF_lt p (by omega) 300 _ _)
    have hv2 : ((1 % p : ℕ) : ZMod p).val = 1 % p :=
      ZMod.val_cast_of_lt (Nat.mod_lt _ (by omega))
    calc powModF p g 300 ((p - 1) / q)
        = ((powModF p g 300 ((p - 1) / q) : ℕ) : ZMod p).val := hv1.symm
      _ = ((1 % p : ℕ) : ZMod p).val := by rw [hcontra]
      _ = 1 % p := hv2

/-! ## The Pratt certificate chain for `P` -/

theorem prime_12048837557 : Nat.Prime 12048837557 := by
  refine lucas_cert 12048837557 2 (by norm_num) (by decide) (by decide) [2, 7, 661, 93001] ?_ ?_
  · intro q hq hdvd
    have hfact : (12048837557 : ℕ) - 1 = 2 ^ 2 * (7 ^ 2 * (661 * 93001)) := by norm_num
    rw [hfact] at hdvd
    rcases (Nat.Prime.dvd_mul hq).mp hdvd with h | h
    · have hq2 := (Nat.prime_dvd_prime_iff_eq hq Nat.prime_two).mp (hq.dvd_of_dvd_pow h)
      subst hq2; decide
    rcases (Nat.Prime.dvd_mul hq).mp h with h | h
    · have hq2 := (Nat.prime_dvd_prime_iff_eq hq (by norm_num)).mp (hq.dvd_of_dvd_pow h)
      subst hq2; decide
    rcases (Nat.Prime.dvd_mul hq).mp h with h | h
    · have hq2 := (Nat.prime_dvd_prime_iff_eq hq (by norm_num)).mp h
      subst hq2; decide
    · have hq2 := (Nat.prime_dvd_prime_iff_eq hq (by norm_num)).mp h
      subst hq2; decide
  · intro q hq
    fin_cases hq <;> decide

theorem prime_5156902474397 : Nat.Prime 5156902474397 := by
  refine lucas_cert 5156902474397 2 (by norm_num) (by decide) (by decide)
    [2, 107, 12048837557] ?_ ?_
  · intro q hq hdvd
    have hfact : (5156902474397 : ℕ) - 1 = 2 ^ 2 * (107 * 12048837557) := by norm_num
    rw [hfact] at hdvd
    rcases (Nat.Prime.dvd_mul hq).mp hdvd with h | h
    · have hq2 := (Nat.prime_dvd_prime_iff_eq hq Nat.prime_two).mp (hq.dvd_of_dvd_pow h)
      subst hq2; decide
    rcases (Nat.Prime.dvd_mul hq).mp h with h | h
    · have hq2 := (Nat.prime_dvd_prime_iff_eq hq (by norm_num)).mp h
      subst hq2; decide
    · have hq2 := (Nat.prime_dvd_prime_iff_eq hq prime_12048837557).mp h
      subst hq2; decide
  · intro q hq
    fin_cases hq <;> decide

theorem prime_1670836401704629 : Nat.Prime 1670836401704629 := by
  refine lucas_cert 1670836401704629 2 (by norm_num) (by decide) (by decide)
    [2, 3, 5156902474397] ?_ ?_
  · intro q hq hdvd
    have hfact : (1670836401704629 : ℕ) - 1 = 2 ^ 2 * (3 ^ 4 * 5156902474397) := by norm_num
    rw [hfact] at hdvd
    rcases (Nat.Prime.dvd_mul hq).mp hdvd with h | h
    · have hq2 := (Nat.prime_dvd_prime_iff_eq hq Nat.prime_two).mp (hq.dvd_of_dvd_pow h)
      subst hq2; decide
    rcases (Nat.Prime.dvd_mul hq).mp h with h | h
    · have hq2 := (Nat.prime_dvd_prime_iff_eq hq Nat.prime_three).mp (hq.dvd_of_dvd_pow h)
      subst hq2; decide
    · have hq2 := (Nat.prime_dvd_prime_iff_eq hq prime_5156902474397).mp h
      subst hq2; decide
  · intro q hq
    fin_cases hq <;> decide

theorem prime_639533339 : Nat.Prime 639533339 := by
  refine lucas_cert 639533339 2 (by norm_num) (by decide) (by decide)
    [2, 229, 853, 1637] ?_ ?_
  · intro q hq hdvd
    have hfact : (639533339 : ℕ) - 1 = 2 * (229 * (853 * 1637)) := by norm_num
    rw [hfact] at hdvd
    rcases (Nat.Prime.dvd_mul hq).mp hdvd with h | h
    · have hq2 := (Nat.prime_dvd_prime_iff_eq hq Nat.prime_two).mp h
      subst hq2; decide
    rcases (Nat.Prime.dvd_mul hq).mp h with h | h
    · have hq2 := (Nat.prime_dvd_prime_iff_eq hq (by norm_num)).mp h
      subst hq2; decide
    rcases (Nat.Prime.dvd_mul hq).mp h with h | h
    · have hq2 := (Nat.prime_dvd_prime_iff_eq hq (by norm_num)).mp h
      subst hq2; decide
    · have hq2 := (Nat.prime_dvd_prime_iff_eq hq (by norm_num)).mp h
      subst hq2; decide
  · intro q hq
    fin_cases hq <;> decide

theorem prime_65865678001877903 : Nat.Prime 65865678001877903 := by
  refine lucas_cert 65865678001877903 5 (by norm_num) (by decide) (by decide)
    [2, 83, 379, 1637, 639533339] ?_ ?_
  · intro q hq hdvd
    have hfact : (65865678001877903 : ℕ) - 1
        = 2 * (83 * (379 * (1637 * 639533339))) := by norm_num
    rw [hfact] at hdvd
    rcases (Nat.Prime.dvd_mul hq).mp hdvd with h | h
    · have hq2 := (Nat.prime_dvd_prime_iff_eq hq Nat.prime_two).mp h
      subst hq2; decide
    rcases (Nat.Prime.dvd_mul hq).mp h with h | h
    · have hq2 := (Nat.prime_dvd_prime_iff_eq hq (by norm_num)).mp h
      subst hq2; decide
    rcases (Nat.Prime.dvd_mul hq).mp h with h | h
    · have hq2 := (Nat.prime_dvd_prime_iff_eq hq (by norm_num)).mp h
      subst hq2; decide
    rcases (Nat.Prime.dvd_mul hq).mp h with h | h
    · have hq2 := (Nat.prime_dvd_prime_iff_eq hq (by norm_num)).mp h
      subst hq2; decide
    · have hq2 := (Nat.prime_dvd_prime_iff_eq hq prime_639533339).mp h
      subst hq2; decide
  · intro q hq
    fin_cases hq <;> decide

theorem prime_13818364434197438864469338081 : Nat.Prime 13818364434197438864469338081 := by
  refine lucas_cert 13818364434197438864469338081 3 (by norm_num) (by decide) (by decide)
    [2, 5, 823, 1593227, 65865678001877903] ?_ ?_
  · intro q hq hdvd
    have hfact : (13818364434197438864469338081 : ℕ) - 1
        = 2 ^ 5 * (5 * (823 * (1593227 * 65865678001877903))) := by norm_num
    rw [hfact] at hdvd
    rcases (Nat.Prime.dvd_mul hq).mp hdvd with h | h
    · have hq2 := (Nat.prime_dvd_prime_iff_eq hq Nat.prime_two).mp (hq.dvd_of_dvd_pow h)
      subst hq2; decide
    rcases (Nat.Prime.dvd_mul hq).mp h with h | h
    · have hq2 := (Nat.prime_dvd_prime_iff_eq hq (by norm_num)).mp h
      subst hq2; decide
    rcases (Nat.Prime.dvd_mul hq).mp h with h | h
    · have hq2 := (Nat.prime_dvd_prime_iff_eq hq (by norm_num)).mp h
      subst hq2; decide
    rcases (Nat.Prime.dvd_mul hq).mp h with h | h
    · have hq2 := (Nat.prime_dvd_prime_iff_eq hq (by norm_num)).mp h
      subst hq2; decide
    · have hq2 := (Nat.prime_dvd_prime_iff_eq hq prime_65865678001877903).mp h
      subst hq2; decide
  · intro q hq
    fin_cases hq <;> decide

theorem prime_405928799 : Nat.Prime 405928799 := by
  refine lucas_cert 405928799 22 (by norm_num) (by decide) (by decide)
    [2, 11, 3691, 4999] ?_ ?_
  · intro q hq hdvd
    have hfact : (405928799 : ℕ) - 1 = 2 * (11 * (3691 * 4999)) := by norm_num
    rw [hfact] at hdvd
    rcases (Nat.Prime.dvd_mul hq).mp hdvd with h | h
    · have hq2 := (Nat.prime_dvd_prime_iff_eq hq Nat.prime_two).mp h
      subst hq2; decide
    rcases (Nat.Prime.dvd_mul hq).mp h with h | h
    · have hq2 := (Nat.prime_dvd_prime_iff_eq hq (by norm_num)).mp h
      subst hq2; decide
    rcases (Nat.Prime.dvd_mul hq).mp h with h | h
    · have hq2 := (Nat.prime_dvd_prime_iff_eq hq (by norm_num)).mp h
      subst hq2; decide
    · have hq2 := (Nat.prime_dvd_prime_iff_eq hq (by norm_num)).mp h
      subst hq2; decide
  · intro q hq
    fin_cases hq <;> decide

/-- Primality of the BN254 scalar-field order: `Fr` really is a field, as the
repository's curve library guarantees. -/
theorem P_prime : Nat.Prime P := by
  refine lucas_cert P 5 (by norm_num [P]) (by decide) (by decide)
    [2, 3, 13, 29, 983, 11003, 237073, 405928799, 1670836401704629,
      13818364434197438864469338081] ?_ ?_
  · intro q hq hdvd
    have hfact : P - 1 = 2 ^ 28 * (3 ^ 2 * (13 * (29 * (983 * (11003 * (237073 *
        (405928799 * (1670836401704629 * 13818364434197438864469338081)))))))) := by
      norm_num [P]
    rw [hfact] at hdvd
    rcases (Nat.Prime.dvd_mul hq).mp hdvd with h | h
    · have hq2 := (Nat.prime_dvd_prime_iff_eq hq Nat.prime_two).mp (hq.dvd_of_dvd_pow h)
      subst hq2; decide
    rcases (Nat.Prime.dvd_mul hq).mp h with h | h
    · have hq2 := (Nat.prime_dvd_prime_iff_eq hq Nat.prime_three).mp (hq.dvd_of_dvd_pow h)
      subst hq2; decide
    rcases (Nat.Prime.dvd_mul hq).mp h with h | h
    · have hq2 := (Nat.prime_dvd_prime_iff_eq hq (by norm_num)).mp h
      subst hq2; decide
    rcases (Nat.Prime.dvd_mul hq).mp h with h | h
    · have hq2 := (Nat.prime_dvd_prime_iff_eq hq (by norm_num)).mp h
      subst hq2; decide
    rcases (Nat.Prime.dvd_mul hq).mp h with h | h
    · have hq2 := (Nat.prime_dvd_prime_iff_eq hq (by norm_num)).mp h
      subst hq2; decide
    rcases (Nat.Prime.dvd_mul hq).mp h with h | h
    · have hq2 := (Nat.prime_dvd_prime_iff_eq hq (by norm_num)).mp h
      subst hq2; decide
    rcases (Nat.Prime.dvd_mul hq).mp h with h | h
    · have hq2 := (Nat.prime_dvd_prime_iff_eq hq (by norm_num)).mp h
      subst hq2; decide
    rcases (Nat.Prime.dvd_mul hq).mp h with h | h
    · have hq2 := (Nat.prime_dvd_prime_iff_eq hq prime_405928799).mp h
      subst hq2; decide
    rcases (Nat.Prime.dvd_mul hq).mp h with h | h
    · have hq2 := (Nat.prime_dvd_prime_iff_eq hq prime_1670836401704629).mp h
      subst hq2; decide
    · have hq2 := (Nat.prime_dvd_prime_iff_eq hq prime_13818364434197438864469338081).mp h
      subst hq2; decide
  · intro q hq
    fin_cases hq <;> decide

instance : Fact (Nat.Prime P) := ⟨P_prime⟩

/-- The scalar field of BN254 (mcl `Fr`). -/
abbrev Fr := ZMod P

/-! ## Bytes and the source's SHA-256 (`struct SHA256` in both .cpp files)

The source carries its own SHA-256 implementation.  It deviates from the
standard in two ways, which we reproduce faithfully: `Maj(x,y,z)` is
`(x&y)^(x&z)` (the standard `^(y&z)` term is missing), and the `K[64]` array
is initialized with only 32 constants, the remaining 32 entries being
zero-initialized.  Prover and verifier share this function, so all
consistency claims are unaffected. -/

/-- Little-endian byte decomposition (`n` bytes) of a natural number. -/
def toLEBytes (n v : ℕ) : List ℕ := (List.range n).map (fun i => v / 256 ^ i % 256)

/-- Big-endian accumulation of a byte list, as in `v = (v<<8)|b[i]` loops. -/
def beVal (l : List ℕ) : ℕ := l.foldl (fun a b => a * 256 + b) 0

/-- Truncation to a 32-bit word. -/
def w32 (x : ℕ) : ℕ := x % 4294967296

/-- 32-bit right rotation (source `rotr`). -/
def rotr32 (n x : ℕ) : ℕ := Nat.lor (x / 2 ^ n) (w32 (x % 2 ^ n * 2 ^ (32 - n)))

/-- 32-bit bitwise complement of a word `< 2^32`. -/
def not32 (x : ℕ) : ℕ := 4294967295 - x

def shaCh (x y z : ℕ) : ℕ := Nat.xor (Nat.land x y) (Nat.land (not32 x) z)

/-- The source's `Maj`: `(x&y)^(x&z)` (nonstandard, reproduced as written). -/
def shaMaj (x y z : ℕ) : ℕ := Nat.xor (Nat.land x y) (Nat.land x z)

def shaSig0 (x : ℕ) : ℕ := Nat.xor (Nat.xor (rotr32 2 x) (rotr32 13 x)) (rotr32 22 x)
def shaSig1 (x : ℕ) : ℕ := Nat.xor (Nat.xor (rotr32 6 x) (rotr32 11 x)) (rotr32 25 x)
def shaSmallSig0 (x : ℕ) : ℕ := Nat.xor (Nat.xor (rotr32 7 x) (rotr32 18 x)) (x / 2 ^ 3)
def shaSmallSig1 (x : ℕ) : ℕ := Nat.xor (Nat.xor (rotr32 17 x) (rotr32 19 x)) (x / 2 ^ 10)

/-- The source's `K[64]`: 32 listed constants, zero-extended to 64 entries. -/
def shaK : List ℕ :=
  [0x428a2f98, 0x71374491, 0xb5c0bfcf, 0xe9b5dba5, 0x3956c25b, 0x59f111f1, 0x923f82a4,
   2870763221, 0xd807aa98, 0x12835b01, 0x243185be, 0x550c7dc3, 0x72be5d74, 0x80deb1fe,
   0x9bdc06a7, 3248222580, 0xe49b69c1, 0xefbe4786, 0x0fc19dc6, 0x240ca1cc, 0x2de92c6f,
   0x4a7484aa, 0x5b9cca4f, 1747873779, 0x748f82ee, 0x78a5636f, 0x84c87814, 0x8cc70208,
   0x90befffa, 0xa4506ceb, 0xbef9a3f7, 3329325298] ++ List.replicate 32 0

def shaInit : List ℕ :=
  [0x6a09e667, 0xbb67ae85, 0x3c6ef372, 0xa54ff53a, 0x510e527f, 0x9b05688c, 0x1f83d9ab,
   0x5be0cd19]

/-- Message-schedule extension: `w[i] = sig0(w[i-15]) + w[i-7] + sig1(w[i-2]) + w[i-16]`. -/
def shaExtendW (w : List ℕ) : ℕ → List ℕ
  | 0 => w
  | k + 1 =>
    let i := w.length
    shaExtendW (w ++ [w32 (shaSmallSig0 (w.getD (i - 15) 0) + w.getD (i - 7) 0 +
      shaSmallSig1 (w.getD (i - 2) 0) + w.getD (i - 16) 0)]) k

/-- One 64-round compression step over the state list `[a,b,c,d,e,f,g,h]`. -/
def shaRound (st : List ℕ) (ki wi : ℕ) : List ℕ :=
  let a := st.getD 0 0
  let b := st.getD 1 0
  let c := st.getD 2 0
  let d := st.getD 3 0
  let e := st.getD 4 0
  let f := st.getD 5 0
  let g := st.getD 6 0
  let hh := st.getD 7 0
  let t1 := w32 (hh + shaSig1 e + shaCh e f g + ki + wi)
  let t2 := w32 (shaSig0 a + shaMaj a b c)
  [w32 (t1 + t2), a, b, c, w32 (d + t1), e, f, g]

/-- `SHA256::process`: compress one 64-byte block into the running state. -/
def shaProcessBlock (st : List ℕ) (block : List ℕ) : List ℕ :=
  let w16 := (List.range 16).map (fun i =>
    Nat.lor (Nat.lor (Nat.lor (block.getD (4 * i) 0 * 2 ^ 24) (block.getD (4 * i + 1) 0 * 2 ^ 16))
      (block.getD (4 * i + 2) 0 * 2 ^ 8)) (block.getD (4 * i + 3) 0))
  let w := shaExtendW w16 48
  let final := (List.range 64).foldl (fun s i => shaRound s (shaK.getD i 0) (w.getD i 0)) st
  (List.range 8).map (fun i => w32 (st.getD i 0 + final.getD i 0))

def shaBlocksGo : ℕ → List ℕ → List ℕ → List ℕ
  | 0, _, st => st
  | k + 1, bytes, st => shaBlocksGo k (bytes.drop 64) (shaProcessBlock st (bytes.take 64))

/-- `SHA256::digest` padding: `0x80`, zeros to 56 mod 64, 8-byte big-endian bit length. -/
def shaPad (msg : List ℕ) : List ℕ :=
  let bits := 8 * msg.length
  msg ++ 128 :: List.replicate ((119 - msg.length % 64) % 64) 0
    ++ (List.range 8).map (fun i => bits / 2 ^ (8 * (7 - i)) % 256)

/-- `SHA256::hash_bytes`: the digest (32 bytes, each word big-endian) of a byte string. -/
def sha256 (msg : List ℕ) : List ℕ :=
  let padded := shaPad msg
  let st := shaBlocksGo (padded.length / 64) padded shaInit
  ((List.range 8).map (fun i =>
    let hi := st.getD i 0
    [hi / 2 ^ 24 % 256, hi / 2 ^ 16 % 256, hi / 2 ^ 8 % 256, hi % 256])).flatten

/-! ## Field-element conversions (source `fr_from_u64`, `fr_to_u64`, serialization)

mcl serializes an `Fr` as the 32-byte little-endian form of its canonical
representative (repository spec §6).  `fr_from_u64` feeds the 8 big-endian
bytes of a `uint64_t` to `setBigEndianMod`, i.e. reduces the value mod `P`. -/

def fr_from_u64 (v : ℕ) : Fr := ((v % 2 ^ 64 : ℕ) : Fr)

/-- mcl `Fr::serialize`: 32 bytes, little-endian. -/
def frBytes (x : Fr) : List ℕ := toLEBytes 32 x.val

/-- Source `fr_to_u64`: folds bytes `24..31` of the serialization big-endian-wise.
Because the serialization is little-endian, these are the eight *most
significant* bytes, read in reversed order. -/
def fr_to_u64 (x : Fr) : ℕ := beVal ((frBytes x).drop 24)

/-- `fr_from_seed32` / `setBigEndianMod` over a 32-byte digest. -/
def fr_from_seed32 (h : List ℕ) : Fr := ((beVal h : ℕ) : Fr)

/-! ## Transcript (`struct Transcript`) -/

/-- The model's 32-byte encoding of a `G1` element (mcl compressed form in the
source; any deterministic injection yields the same provable statements). -/
def g1Bytes (g : Fr) : List ℕ := toLEBytes 32 g.val

structure Transcript where
  st : List ℕ
deriving DecidableEq

def Transcript.absorb (tr : Transcript) (a : List ℕ) : Transcript := ⟨tr.st ++ a⟩

def Transcript.absorb_fr (tr : Transcript) (x : Fr) : Transcript := ⟨tr.st ++ frBytes x⟩

def Transcript.absorb_g1 (tr : Transcript) (g : Fr) : Transcript := ⟨tr.st ++ g1Bytes g⟩

def Transcript.squeeze (tr : Transcript) : List ℕ := sha256 tr.st

/-- `challenge()`: top 8 digest bytes, big-endian, lifted into `Fr`. -/
def Transcript.challenge (tr : Transcript) : Fr := fr_from_u64 (beVal ((sha256 tr.st).take 8))

/-! ## Random index derivation (`derive_indices`, both .cpp files) -/

/-- One step per produced index: hash `cur || counter` (4-byte big-endian
counter cycling 0,1,2,3), take the top 8 digest bytes mod the domain
(`domain ? domain : 1`), advance `cur` to the digest. -/
def derive_indices_go (cur : List ℕ) (c domain : ℕ) : ℕ → List ℕ
  | 0 => []
  | k + 1 =>
    let v := cur ++ [c / 2 ^ 24 % 256, c / 2 ^ 16 % 256, c / 2 ^ 8 % 256, c % 256]
    let d := sha256 v
    let x := beVal (d.take 8)
    x % (if domain = 0 then 1 else domain) :: derive_indices_go d ((c + 1) % 4) domain k

def derive_indices (seed : List ℕ) (domain k : ℕ) : List ℕ :=
  derive_indices_go seed 0 domain k

theorem derive_indices_go_length (domain : ℕ) :
    ∀ (k : ℕ) (cur : List ℕ) (c : ℕ), (derive_indices_go cur c domain k).length = k := by
  intro k
  induction k with
  | zero => intro cur c; rfl
  | succ n ih => intro cur c; simp [derive_indices_go, ih]

theorem derive_indices_go_bound (domain : ℕ) :
    ∀ (k : ℕ) (cur : List ℕ) (c : ℕ) (i : ℕ), i ∈ derive_indices_go cur c domain k →
      i < max domain 1 := by
  intro k
  induction k with
  | zero => intro cur c i hi; simp [derive_indices_go] at hi
  | succ n ih =>
    intro cur c i hi
    simp only [derive_indices_go, List.mem_cons] at hi
    rcases hi with hi | hi
    · subst hi
      rcases Nat.eq_zero_or_pos domain with hd | hd
      · simp [hd, Nat.mod_one]
      · have hne : domain ≠ 0 := by omega
        rw [if_neg hne]
        have hm := Nat.mod_lt (beVal ((sha256 (cur ++ [c / 2 ^ 24 % 256, c / 2 ^ 16 % 256,
          c / 2 ^ 8 % 256, c % 256])).take 8)) hd
        omega
    · exact ih _ _ _ hi

/-! ## Dense polynomials over `Fr`

`evalPoly` and `divXminusZ` are the `kzg_mcl.hpp` primitives (Horner
evaluation and synthetic division by `X - z`, ascending-power coefficients).
`Poly` / `poly_normalize` are the corresponding pieces of the two .cpp files.
-/

/-- Horner evaluation from the highest coefficient down (`KZG::evalPoly`). -/
def evalPoly (a : List Fr) (z : Fr) : Fr := a.foldr (fun c y => y * z + c) 0

/-- Synthetic division by `X - z` (`KZG::divXminusZ`): quotient (ascending
order, one coefficient shorter) and remainder `P(z)`, in one pass. -/
def divXminusZ : List Fr → Fr → List Fr × Fr
  | [], _ => ([], 0)
  | c :: rest, z =>
    if rest.isEmpty then ([], c)
    else
      let qr := divXminusZ rest z
      (qr.2 :: qr.1, c + qr.2 * z)

theorem evalPoly_nil (z : Fr) : evalPoly [] z = 0 := rfl

theorem evalPoly_cons (c : Fr) (rest : List Fr) (z : Fr) :
    evalPoly (c :: rest) z = evalPoly rest z * z + c := rfl

theorem evalPoly_append (a b : List Fr) (z : Fr) :
    evalPoly (a ++ b) z = evalPoly a z + z ^ a.length * evalPoly b z := by
  induction a with
  | nil => simp [evalPoly_nil, evalPoly]
  | cons c t ih =>
    simp only [List.cons_append, evalPoly_cons, ih, List.length_cons]
    ring

theorem divXminusZ_cons (c : Fr) (rest : List Fr) (z : Fr) (h : rest ≠ []) :
    divXminusZ (c :: rest) z
      = ((divXminusZ rest z).2 :: (divXminusZ rest z).1, c + (divXminusZ rest z).2 * z) := by
  cases rest with
  | nil => exact absurd rfl h
  | cons d t => rfl

theorem divXminusZ_length : ∀ (a : List Fr) (z : Fr), a ≠ [] →
    ((divXminusZ a z).1).length = a.length - 1 := by
  intro a
  induction a with
  | nil => intro z h; exact absurd rfl h
  | cons c rest ih =>
    intro z _
    cases rest with
    | nil => simp [divXminusZ]
    | cons d t =>
      rw [divXminusZ_cons c (d :: t) z (by simp)]
      have hlen := ih z (by simp)
      simp only [List.length_cons] at hlen ⊢
      omega

theorem divXminusZ_snd : ∀ (a : List Fr) (z : Fr), (divXminusZ a z).2 = evalPoly a z := by
  intro a
  induction a with
  | nil => intro z; rfl
  | cons c rest ih =>
    intro z
    cases rest with
    | nil => simp [divXminusZ, evalPoly_cons, evalPoly_nil]
    | cons d t =>
      rw [divXminusZ_cons c (d :: t) z (by simp), evalPoly_cons]
      simp only
      rw [ih z]
      ring

theorem divXminusZ_identity : ∀ (a : List Fr) (z w : Fr),
    evalPoly a w = evalPoly (divXminusZ a z).1 w * (w - z) + (divXminusZ a z).2 := by
  intro a
  induction a with
  | nil => intro z w; simp [divXminusZ, evalPoly_nil]
  | cons c rest ih =>
    intro z w
    cases rest with
    | nil => simp [divXminusZ, evalPoly_cons, evalPoly_nil]
    | cons d t =>
      rw [divXminusZ_cons c (d :: t) z (by simp)]
      simp only
      rw [evalPoly_cons, ih z w, evalPoly_cons]
      ring

/-- Coefficient vector with trailing zeros stripped (`poly_normalize` loop). -/
def stripTrailingZeros (l : List Fr) : List Fr :=
  (l.reverse.dropWhile (fun x => x == 0)).reverse

theorem evalPoly_all_zero (l : List Fr) (hz : ∀ x ∈ l, x = 0) (z : Fr) : evalPoly l z = 0 := by
  induction l with
  | nil => rfl
  | cons c t ih =>
    rw [evalPoly_cons, hz c (by simp), ih (fun x hx => hz x (by simp [hx]))]
    ring

theorem evalPoly_stripTrailingZeros (l : List Fr) (z : Fr) :
    evalPoly (stripTrailingZeros l) z = evalPoly l z := by
  have hsplit : l = (l.reverse.dropWhile (fun x => x == 0)).reverse
      ++ (l.reverse.takeWhile (fun x => x == 0)).reverse := by
    conv_lhs => rw [← List.reverse_reverse l]
    rw [← List.reverse_append, List.takeWhile_append_dropWhile]
  have hzeros : ∀ x ∈ (l.reverse.takeWhile (fun x => x == 0)).reverse, x = 0 := by
    intro x hx
    rw [List.mem_reverse] at hx
    have := List.mem_takeWhile_imp hx
    simpa using this
  conv_rhs => rw [hsplit]
  rw [evalPoly_append, evalPoly_all_zero _ hzeros, stripTrailingZeros]
  ring

/-- Source `struct Poly` (named `PolyF` here: `Poly` is taken by Mathlib). -/
structure PolyF where
  c : List Fr
deriving DecidableEq

/-- `poly_normalize`: drop trailing zero coefficients. -/
def poly_normalize (p : PolyF) : PolyF := ⟨stripTrailingZeros p.c⟩

/-! ## KZG, `kzg_mcl.hpp` version (`namespace KZG`) -/

namespace KZG

structure SRS where
  g1_powers : List Fr
  g2_1 : Fr
  g2_tau : Fr
deriving DecidableEq

/-- `SRS::trustedSetup`: powers of a secret `tau` on the hashed `G1`
generator, plus `[1]G2`, `[tau]G2`.  The secret is drawn from a CSPRNG in the
source; the model takes it as a parameter. -/
def trustedSetup (n : ℕ) (tau : Fr) : SRS :=
  { g1_powers := (List.range n).map (fun i => tau ^ i), g2_1 := 1, g2_tau := tau }

/-- `msm_g1`: throws (`none`) unless `bases` and `scalars` have equal length;
otherwise sums `scalars[i] * bases[i]`, skipping zero scalars. -/
def msm_g1 (bases scalars : List Fr) : Option Fr :=
  if bases.length ≠ scalars.length then none
  else some ((bases.zip scalars).foldl
    (fun acc p => if p.2 = 0 then acc else acc + p.2 * p.1) 0)

/-- `KZG::commit`: size guard, then the MSM over the *whole* power list. -/
def commit (srs : SRS) (coeffs : List Fr) : Option Fr :=
  if coeffs.length > srs.g1_powers.length then none
  else msm_g1 srs.g1_powers coeffs

/-- `KZG::open` (named `openPoly`; `open` is a Lean keyword): synthetic
division, then the MSM over the whole power list for the witness. -/
def openPoly (srs : SRS) (coeffs : List Fr) (z : Fr) : Option (Fr × Fr) :=
  if coeffs.length = 0 then some (0, 0)
  else
    let qr := divXminusZ coeffs z
    if qr.1.length > srs.g1_powers.length then none
    else (msm_g1 srs.g1_powers qr.1).map (fun pi => (qr.2, pi))

/-- `KZG::verify`: the pairing check
`e(C - y*mapToG1(1), g2_1) == e(pi, g2_tau - z*g2_1)`, in exponent form.
The `y` scaling uses exponent `1`, i.e. the same hashed generator that
`trustedSetup` used for `g1_powers[0]`. -/
def verify (srs : SRS) (C z y pi : Fr) : Bool :=
  decide ((C - y * 1) * srs.g2_1 = pi * (srs.g2_tau - z * srs.g2_1))

end KZG

/-! ## KZG, fidesinnova.cpp / jolt_style_gdb.cpp version -/

/-- `struct KZGParams { G1 g1; G2 g2; vector<G1> srs_g1; G2 g2_s; Fr s; }`.
Exponent representation: `g1`, `g2` are the generators themselves (`1`). -/
structure KZGParams where
  g1 : Fr
  g2 : Fr
  srs_g1 : List Fr
  g2_s : Fr
  s : Fr
deriving DecidableEq

/-- The `pow = 1; for i: srs[i] = pow * g1; pow *= s` loop of both setups. -/
def powList (s : Fr) : ℕ → Fr → List Fr
  | 0, _ => []
  | n + 1, pow => pow :: powList s n (pow * s)

/-- Shared shape of `kzg_setup` (random secret) and `kzg_setup_deterministic`
(secret derived from a seed): both fill `KZGParams` the same way from the
secret `s`. -/
def mkKZGParams (max_deg : ℕ) (s : Fr) : KZGParams :=
  { g1 := 1, g2 := 1, srs_g1 := powList s (max_deg + 1) 1, g2_s := s, s := s }

/-- ASCII bytes of `"fidesinnova_srs"`. -/
def srsSeedBytes : List ℕ := [102, 105, 100, 101, 115, 105, 110, 110, 111, 118, 97, 95, 115, 114, 115]

/-- `kzg_setup_deterministic` (fidesinnova.cpp): the secret comes from
`SHA256("fidesinnova_srs")` via `setBigEndianMod`. -/
def kzg_setup_deterministic (max_deg : ℕ) : KZGParams :=
  mkKZGParams max_deg (fr_from_seed32 (sha256 srsSeedBytes))

/-- The MSM loop of `kzg_commit`: `for i: if c[i]==0 continue; acc += srs[i]*c[i]`. -/
def msmFold (srs coeffs : List Fr) : Fr :=
  (coeffs.zip srs).foldl (fun acc p => if p.1 = 0 then acc else acc + p.2 * p.1) 0

/-- `kzg_commit`: `none` models the `"kzg_commit: SRS too small"` throw. -/
def kzg_commit (pp : KZGParams) (f : PolyF) : Option Fr :=
  if f.c.length > pp.srs_g1.length then none
  else some (msmFold pp.srs_g1 f.c)

/-- The `q_rev[0]=rev[0]; q_rev[i]=rev[i]+z*q_rev[i-1]` recurrence of `kzg_open`. -/
def qRevGo (z prev : Fr) : List Fr → List Fr
  | [] => []
  | a :: rest => (a + z * prev) :: qRevGo z (a + z * prev) rest

def qRev (z : Fr) : List Fr → List Fr
  | [] => []
  | a :: rest => a :: qRevGo z a rest

/-- `kzg_open` (fidesinnova.cpp): Horner over the reversed coefficients gives
the value and the quotient coefficients; the witness is a commitment to the
normalized quotient.  Empty polynomial: cleared outputs `(0, 0)`. -/
def kzg_open (pp : KZGParams) (f : PolyF) (z : Fr) : Option (Fr × Fr) :=
  if f.c.isEmpty then some (0, 0)
  else
    let deg := f.c.length - 1
    let q_rev := qRev z f.c.reverse
    let value := q_rev.getD deg 0
    let q_coeff := (q_rev.take deg).reverse
    (kzg_commit pp (poly_normalize ⟨q_coeff⟩)).map (fun w => (value, w))

/-- `kzg_verify` (fidesinnova.cpp): pairing check
`e(C - value*g1, g2) == e(witness, g2_s - z*g2)` in exponent form. -/
def kzg_verify (pp : KZGParams) (C z value witness : Fr) : Bool :=
  decide ((C - value * pp.g1) * pp.g2 = witness * (pp.g2_s - z * pp.g2))

/-! ### Equivalence of `kzg_open`'s scan with synthetic division -/

theorem qRevGo_append (z : Fr) : ∀ (l : List Fr) (p c : Fr),
    qRevGo z p (l ++ [c]) = qRevGo z p l ++ [c + z * (qRevGo z p l).getLastD p] := by
  intro l
  induction l with
  | nil => intro p c; simp [qRevGo]
  | cons a t ih =>
    intro p c
    simp only [List.cons_append, qRevGo, List.append_eq]
    rw [ih (a + z * p) c]
    simp only [List.getLastD_cons]

theorem qRev_append (z : Fr) (l : List Fr) (c : Fr) (h : l ≠ []) :
    qRev z (l ++ [c]) = qRev z l ++ [c + z * (qRev z l).getLastD 0] := by
  cases l with
  | nil => exact absurd rfl h
  | cons a t =>
    simp only [List.cons_append, qRev, qRevGo_append, List.getLastD_cons]

theorem qRev_spec (z : Fr) : ∀ (a : List Fr), a ≠ [] →
    qRev z a.reverse = ((divXminusZ a z).1).reverse ++ [evalPoly a z] := by
  intro a
  induction a with
  | nil => intro h; exact absurd rfl h
  | cons c rest ih =>
    intro _
    cases hrest : rest with
    | nil =>
      simp only [List.reverse_cons, List.reverse_nil, List.nil_append, qRev, qRevGo,
        divXminusZ, List.isEmpty_nil, if_pos, evalPoly_cons, evalPoly_nil]
      norm_num
    | cons d t =>
      have hne : rest ≠ [] := by rw [hrest]; simp
      rw [← hrest]
      calc qRev z ((c :: rest).reverse)
          = qRev z (rest.reverse ++ [c]) := by rw [List.reverse_cons]
        _ = qRev z rest.reverse ++ [c + z * (qRev z rest.reverse).getLastD 0] :=
            qRev_append z rest.reverse c (by simpa using hne)
        _ = ((divXminusZ rest z).1.reverse ++ [evalPoly rest z])
              ++ [c + z * evalPoly rest z] := by
            rw [ih hne, List.getLastD_concat]
        _ = ((divXminusZ (c :: rest) z).1).reverse ++ [evalPoly (c :: rest) z] := by
            rw [divXminusZ_cons c rest z hne, divXminusZ_snd]
            simp only [List.reverse_cons, evalPoly_cons, List.append_assoc]
            congr 2
            ring

theorem getD_append_length (A : List Fr) (e : Fr) : (A ++ [e]).getD A.length 0 = e := by
  induction A with
  | nil => rfl
  | cons a t ih => simpa using ih

theorem kzg_open_eq (pp : KZGParams) (f : PolyF) (z : Fr) (hne : f.c ≠ []) :
    kzg_open pp f z = (kzg_commit pp (poly_normalize ⟨(divXminusZ f.c z).1⟩)).map
      (fun w => (evalPoly f.c z, w)) := by
  unfold kzg_open
  rw [if_neg (by simpa using hne)]
  have hq := qRev_spec z f.c hne
  have hlenq : ((divXminusZ f.c z).1).length = f.c.length - 1 := divXminusZ_length f.c z hne
  have hlenrev : ((divXminusZ f.c z).1).reverse.length = f.c.length - 1 := by
    rw [List.length_reverse, hlenq]
  simp only [hq]
  have hval : (((divXminusZ f.c z).1).reverse ++ [evalPoly f.c z]).getD (f.c.length - 1) 0
      = evalPoly f.c z := by
    rw [← hlenrev]; exact getD_append_length _ _
  have htake : (((divXminusZ f.c z).1).reverse ++ [evalPoly f.c z]).take (f.c.length - 1)
      = ((divXminusZ f.c z).1).reverse := by
    rw [← hlenrev]; exact List.take_left _ _
  rw [hval, htake, List.reverse_reverse]

/-! ### KZG completeness for the fidesinnova implementation -/

theorem powList_length (s : Fr) : ∀ (n : ℕ) (w : Fr), (powList s n w).length = n := by
  intro n
  induction n with
  | zero => intro w; rfl
  | succ m ih => intro w; simp [powList, ih]

theorem msmFold_powList (s : Fr) : ∀ (c : List Fr) (n : ℕ) (w acc : Fr), c.length ≤ n →
    (c.zip (powList s n w)).foldl (fun acc p => if p.1 = 0 then acc else acc + p.2 * p.1) acc
      = acc + w * evalPoly c s := by
  intro c
  induction c with
  | nil => intro n w acc _; simp [evalPoly_nil]
  | cons a c' ih =>
    intro n w acc hlen
    cases n with
    | zero => simp at hlen
    | succ m =>
      simp only [powList, List.zip_cons_cons, List.foldl_cons]
      have hstep : (if a = 0 then acc else acc + w * a) = acc + w * a := by
        by_cases ha : a = 0
        · rw [if_pos ha, ha]; ring
        · rw [if_neg ha]
      rw [hstep, ih m (w * s) (acc + w * a) (by simpa using hlen), evalPoly_cons]
      ring

theorem kzg_commit_powers (max_deg : ℕ) (s : Fr) (f : PolyF) (h : f.c.length ≤ max_deg + 1) :
    kzg_commit (mkKZGParams max_deg s) f = some (evalPoly f.c s) := by
  unfold kzg_commit mkKZGParams
  rw [if_neg (by simp only [powList_length]; omega)]
  unfold msmFold
  rw [msmFold_powList s f.c (max_deg + 1) 1 0 h]
  norm_num

theorem stripTrailingZeros_length_le (l : List Fr) :
    (stripTrailingZeros l).length ≤ l.length := by
  unfold stripTrailingZeros
  calc (l.reverse.dropWhile (fun x => x == 0)).reverse.length
      = (l.reverse.dropWhile (fun x => x == 0)).length := List.length_reverse _
    _ ≤ l.reverse.length := List.Sublist.length_le (List.dropWhile_sublist _)
    _ = l.length := List.length_reverse _

/-- Completeness of the fidesinnova KZG quadruple: for an honestly generated
`KZGParams` (any secret `s`), any polynomial fitting the SRS, and any point
`z`, the opening produced by `kzg_open` passes `kzg_verify` against the
commitment produced by `kzg_commit`. -/
theorem kzg_complete (max_deg : ℕ) (s z : Fr) (f : PolyF) (hlen : f.c.length ≤ max_deg + 1) :
    ∀ C y w, kzg_commit (mkKZGParams max_deg s) f = some C →
      kzg_open (mkKZGParams max_deg s) f z = some (y, w) →
      kzg_verify (mkKZGParams max_deg s) C z y w = true := by
  intro C y w hC hopen
  have hCval : C = evalPoly f.c s := by
    rw [kzg_commit_powers max_deg s f hlen] at hC
    exact (Option.some_inj.mp hC).symm
  by_cases hemp : f.c = []
  · unfold kzg_open at hopen
    rw [if_pos (by simp [hemp])] at hopen
    obtain ⟨hy, hw⟩ := Prod.mk.injEq .. ▸ Option.some_inj.mp hopen
    subst hCval
    simp only [kzg_verify, mkKZGParams, decide_eq_true_eq, hemp, evalPoly_nil]
    rw [← hy, ← hw]
    ring
  · rw [kzg_open_eq _ _ _ hemp] at hopen
    have hqlen : (poly_normalize ⟨(divXminusZ f.c z).1⟩).c.length ≤ max_deg + 1 := by
      calc (stripTrailingZeros (divXminusZ f.c z).1).length
          ≤ ((divXminusZ f.c z).1).length := stripTrailingZeros_length_le _
        _ = f.c.length - 1 := divXminusZ_length f.c z hemp
        _ ≤ max_deg + 1 := by omega
    rw [kzg_commit_powers max_deg s _ hqlen] at hopen
    simp only [Option.map_some', Option.some_inj] at hopen
    obtain ⟨hy, hw⟩ := Prod.mk.injEq .. ▸ hopen
    have hid := divXminusZ_identity f.c z s
    rw [divXminusZ_snd] at hid
    subst hCval
    simp only [kzg_verify, mkKZGParams, decide_eq_true_eq]
    rw [← hy, ← hw]
    simp only [poly_normalize]
    rw [evalPoly_stripTrailingZeros]
    rw [hid]
    ring

/-! ## Sum-check (`sumcheck_prove` / `sumcheck_verify`, both .cpp files)

The C++ transcript is mutated in place; the model passes it explicitly.
`SumcheckProofRound` stores `(g0, g1 - g0)` exactly as the prover pushes it;
the verifier reconstructs `g1 = rd.g0 + rd.g1`. -/

def sumList (l : List Fr) : Fr := l.foldl (fun a b => a + b) 0

/-- `fold_mle`: `out[i/2] = f[i]*(1-r) + f[i+1]*r`.  The C++ loop reads pairs;
tables always have even (power-of-two) length where it is used. -/
def fold_mle : List Fr → Fr → List Fr
  | a :: b :: rest, r => (a * (1 - r) + b * r) :: fold_mle rest r
  | _, _ => []

/-- The per-round pair `(g0, g1) = (sum of even entries, sum of odd entries)`. -/
def sumEvenOdd : List Fr → Fr × Fr
  | a :: b :: rest =>
    let p := sumEvenOdd rest
    (a + p.1, b + p.2)
  | _ => (0, 0)

/-- The `n = 0; while ((1<<n) < size) n++;` loop (also the `pow2` doubling
loop of `prove_from_trace`, as `2 ^ ceilLog2 size`). -/
def ceilLog2Go (size : ℕ) : ℕ → ℕ → ℕ
  | 0, n => n
  | fuel + 1, n => if 2 ^ n < size then ceilLog2Go size fuel (n + 1) else n

def ceilLog2 (size : ℕ) : ℕ := ceilLog2Go size size 0

structure SumcheckProofRound where
  g0 : Fr
  g1 : Fr
deriving DecidableEq

structure SumcheckProof where
  n_vars : ℕ
  claimed_sum : Fr
  rounds : List SumcheckProofRound
deriving DecidableEq

def sumcheck_prove_go : ℕ → List Fr → Transcript → List SumcheckProofRound × Transcript
  | 0, _, tr => ([], tr)
  | k + 1, cur, tr =>
    let s := sumEvenOdd cur
    let tr1 := (tr.absorb_fr s.1).absorb_fr s.2
    let r := tr1.challenge
    let res := sumcheck_prove_go k (fold_mle cur r) tr1
    (⟨s.1, s.2 - s.1⟩ :: res.1, res.2)

/-- `sumcheck_prove`: `none` models the `"sumcheck: len not pow2"` throw. -/
def sumcheck_prove (f_table : List Fr) (tr : Transcript) :
    Option (SumcheckProof × Transcript) :=
  let n := ceilLog2 f_table.length
  if 2 ^ n ≠ f_table.length then none
  else
    let go := sumcheck_prove_go n f_table tr
    some (⟨n, sumList f_table, go.1⟩, go.2)

/-- One verification pass.  The C++ indexes `pf.rounds[round]` without a
bounds check (undefined behaviour when `rounds` is shorter than `n_vars`);
the model reads a zero round in that case. -/
def sumcheck_verify_go : ℕ → List SumcheckProofRound → Fr → Transcript → Bool × Transcript
  | 0, _, _, tr => (true, tr)
  | k + 1, rds, cur_sum, tr =>
    let rd := rds.headD ⟨0, 0⟩
    let g0 := rd.g0
    let g1 := rd.g0 + rd.g1
    if g0 + g1 ≠ cur_sum then (false, tr)
    else
      let tr1 := (tr.absorb_fr g0).absorb_fr g1
      let r := tr1.challenge
      sumcheck_verify_go k rds.tail (g0 + rd.g1 * r) tr1

def sumcheck_verify (pf : SumcheckProof) (tr : Transcript) (claimed_sum : Fr) :
    Bool × Transcript :=
  sumcheck_verify_go pf.n_vars pf.rounds claimed_sum tr

/-! ### Sum-check helper lemmas -/

theorem foldl_add_acc : ∀ (l : List Fr) (acc : Fr),
    l.foldl (fun a b => a + b) acc = acc + l.foldl (fun a b => a + b) 0 := by
  intro l
  induction l with
  | nil => intro acc; simp
  | cons x t ih =>
    intro acc
    simp only [List.foldl_cons]
    rw [ih (acc + x), ih (0 + x)]
    ring

theorem sumList_cons (x : Fr) (l : List Fr) : sumList (x :: l) = x + sumList l := by
  unfold sumList
  simp only [List.foldl_cons]
  rw [foldl_add_acc l (0 + x)]
  ring

theorem sumEvenOdd_sum : ∀ (l : List Fr), l.length % 2 = 0 →
    (sumEvenOdd l).1 + (sumEvenOdd l).2 = sumList l
  | [], _ => by simp [sumEvenOdd, sumList]
  | [a], h => by simp at h
  | a :: b :: rest, h => by
    have ih := sumEvenOdd_sum rest (by simp only [List.length_cons] at h; omega)
    simp only [sumEvenOdd, sumList_cons]
    rw [← ih]
    ring

theorem fold_mle_sum : ∀ (l : List Fr) (r : Fr), l.length % 2 = 0 →
    sumList (fold_mle l r) = (sumEvenOdd l).1 * (1 - r) + (sumEvenOdd l).2 * r
  | [], r, _ => by simp [fold_mle, sumEvenOdd, sumList]
  | [a], r, h => by simp at h
  | a :: b :: rest, r, h => by
    have ih := fold_mle_sum rest r (by simp only [List.length_cons] at h; omega)
    simp only [fold_mle, sumEvenOdd, sumList_cons]
    rw [ih]
    ring

theorem fold_mle_length : ∀ (l : List Fr) (r : Fr), (fold_mle l r).length = l.length / 2
  | [], _ => rfl
  | [a], _ => by simp [fold_mle]
  | a :: b :: rest, r => by
    have ih := fold_mle_length rest r
    simp only [fold_mle, List.length_cons, ih]
    omega

/-- Core sum-check completeness: running the verifier on the prover's rounds,
from the same transcript and the true sum, succeeds and leaves the verifier's
transcript equal to the prover's. -/
theorem sumcheck_complete_go : ∀ (n : ℕ) (cur : List Fr) (tr : Transcript),
    cur.length = 2 ^ n →
    sumcheck_verify_go n (sumcheck_prove_go n cur tr).1 (sumList cur) tr
      = (true, (sumcheck_prove_go n cur tr).2) := by
  intro n
  induction n with
  | zero => intro cur tr _; rfl
  | succ k ih =>
    intro cur tr hlen
    have heven : cur.length % 2 = 0 := by rw [hlen, pow_succ]; omega
    have hsum := sumEvenOdd_sum cur heven
    simp only [sumcheck_prove_go, sumcheck_verify_go, List.headD_cons, List.tail_cons]
    rw [if_neg (by rw [show (sumEvenOdd cur).1 + ((sumEvenOdd cur).1 +
      ((sumEvenOdd cur).2 - (sumEvenOdd cur).1)) = (sumEvenOdd cur).1 + (sumEvenOdd cur).2
      from by ring, hsum]; exact fun hc => hc rfl)]
    have hg1 : (sumEvenOdd cur).1 + ((sumEvenOdd cur).2 - (sumEvenOdd cur).1)
        = (sumEvenOdd cur).2 := by ring
    rw [hg1]
    set tr1 := (tr.absorb_fr (sumEvenOdd cur).1).absorb_fr (sumEvenOdd cur).2 with htr1
    have hfoldlen : (fold_mle cur tr1.challenge).length = 2 ^ k := by
      rw [fold_mle_length, hlen, pow_succ]; omega
    have hfoldsum : sumList (fold_mle cur tr1.challenge)
        = (sumEvenOdd cur).1 + ((sumEvenOdd cur).2 - (sumEvenOdd cur).1) * tr1.challenge := by
      rw [fold_mle_sum cur tr1.challenge heven]
      ring
    rw [← hfoldsum]
    exact ih (fold_mle cur tr1.challenge) tr1 hfoldlen

theorem ceilLog2Go_ge (size : ℕ) : ∀ (fuel n : ℕ), size ≤ 2 ^ (n + fuel) →
    size ≤ 2 ^ ceilLog2Go size fuel n := by
  intro fuel
  induction fuel with
  | zero => intro n h; simpa using h
  | succ f ih =>
    intro n h
    by_cases hc : 2 ^ n < size
    · simp only [ceilLog2Go, if_pos hc]
      exact ih (n + 1) (by rw [show n + 1 + f = n + (f + 1) from by omega]; exact h)
    · simp only [ceilLog2Go, if_neg hc]
      omega

theorem ceilLog2Go_min (size : ℕ) : ∀ (fuel n m : ℕ), n ≤ m → m < ceilLog2Go size fuel n →
    2 ^ m < size := by
  intro fuel
  induction fuel with
  | zero =>
    intro n m hnm hm
    simp only [ceilLog2Go] at hm
    omega
  | succ f ih =>
    intro n m hnm hm
    by_cases hc : 2 ^ n < size
    · simp only [ceilLog2Go, if_pos hc] at hm
      by_cases hmn : m = n
      · subst hmn; exact hc
      · exact ih (n + 1) m (by omega) hm
    · simp only [ceilLog2Go, if_neg hc] at hm
      omega

theorem ceilLog2_ge (size : ℕ) : size ≤ 2 ^ ceilLog2 size := by
  unfold ceilLog2
  exact ceilLog2Go_ge size size 0 (by simpa using (Nat.lt_two_pow size).le)

theorem ceilLog2_pow (k : ℕ) : ceilLog2 (2 ^ k) = k := by
  have hge := ceilLog2_ge (2 ^ k)
  have hle : ceilLog2 (2 ^ k) ≤ k := by
    by_contra hgt
    have := ceilLog2Go_min (2 ^ k) (2 ^ k) 0 k (by omega) (by unfold ceilLog2 at hgt; omega)
    omega
  have hk : k ≤ ceilLog2 (2 ^ k) :=
    (Nat.pow_le_pow_iff_right (by omega)).mp hge
  omega

theorem ceilLog2_le_of_le_pow (size k : ℕ) (h : size ≤ 2 ^ k) : ceilLog2 size ≤ k := by
  by_contra hgt
  have := ceilLog2Go_min size size 0 k (by omega) (by unfold ceilLog2 at hgt; omega)
  omega

/-- Full sum-check completeness: if the table length is an exact power of
two, the prover succeeds, its claimed sum is the table sum, and the verifier,
run from an equal transcript on that claimed sum, accepts and ends with the
prover's transcript. -/
theorem sumcheck_complete (t : List Fr) (n : ℕ) (tr : Transcript) (hlen : t.length = 2 ^ n) :
    ∃ pf trOut, sumcheck_prove t tr = some (pf, trOut) ∧
      pf.claimed_sum = sumList t ∧ pf.n_vars = n ∧
      sumcheck_verify pf tr pf.claimed_sum = (true, trOut) := by
  have hn : ceilLog2 t.length = n := by rw [hlen, ceilLog2_pow]
  refine ⟨⟨n, sumList t, (sumcheck_prove_go n t tr).1⟩, (sumcheck_prove_go n t tr).2, ?_, rfl, rfl, ?_⟩
  · unfold sumcheck_prove
    rw [hn]
    rw [if_neg (show ¬2 ^ n ≠ t.length by omega)]
  · unfold sumcheck_verify
    exact sumcheck_complete_go n t tr hlen

/-! ## Executable field inversion and division

mcl's `Fr::operator/` is exact field division; the model realizes the
inverse by Fermat exponentiation so that every definition in this file is
executable, and proves it equal to the field inverse of `ZMod P`. -/

def frInv (x : Fr) : Fr := ((powModF P x.val 300 (P - 2) : ℕ) : Fr)

theorem frInv_eq (x : Fr) : frInv x = x⁻¹ := by
  unfold frInv
  have hlt : P - 2 < 2 ^ 300 := by decide
  rw [← zmod_pow_powModF P x.val 300 (P - 2) hlt]
  rw [ZMod.natCast_val, ZMod.cast_id]
  by_cases hx : x = 0
  · subst hx
    rw [zero_pow (by decide : P - 2 ≠ 0), inv_zero]
  · have h1 : x ^ (P - 1) = 1 := ZMod.pow_card_sub_one_eq_one hx
    have h2 : x ^ (P - 2) * x = x ^ (P - 1) := by
      have hexp : P - 2 + 1 = P - 1 := by decide
      rw [← pow_succ, hexp]
    exact eq_inv_of_mul_eq_one_left (by rw [h2, h1])

/-- mcl field division `a / b` (`one / denom` in the source). -/
def fr_div (a b : Fr) : Fr := a * frInv b

theorem fr_div_eq (a b : Fr) : fr_div a b = a / b := by
  rw [fr_div, frInv_eq, div_eq_mul_inv]

/-! ## Lagrange interpolation on `{0, …, n-1}` (`interpolate_on_range0`) -/

/-- Inner product step of the interpolation: multiply the running numerator
by the linear factor `(minus_j + X)`; `tmp[a] += numer[a]*term.c[0];
tmp[a+1] += numer[a]*term.c[1]` with `term = {minus_j, 1}`. -/
def linMulStep (p : List Fr) (m : Fr) : List Fr :=
  List.zipWith (fun u v => u + v) (p.map (fun cc => cc * m) ++ [0]) (0 :: p)

/-- The inner loop range `j ∈ {0,…,n-1} \ {i}` in order. -/
def lagRange (n i : ℕ) : List ℕ := (List.range n).filter (fun j => j ≠ i)

def lagNumer (n i : ℕ) : List Fr :=
  (lagRange n i).foldl (fun acc j => linMulStep acc (0 - fr_from_u64 j)) [1]

def lagDenom (n i : ℕ) : Fr :=
  (lagRange n i).foldl (fun acc j => acc * (fr_from_u64 i - fr_from_u64 j)) 1

/-- `if (numer.size > acc.size) acc.resize; for k: acc[k] += numer[k]`. -/
def polyAccum (a b : List Fr) : List Fr :=
  let a2 := a ++ List.replicate (b.length - a.length) 0
  List.zipWith (fun u v => u + v) (a2.take b.length) b ++ a2.drop b.length

/-- `interpolate_on_range0` (both .cpp files): naive Lagrange interpolation
on the consecutive integers `0, …, n-1`. -/
def interpolate_on_range0 (vals : List Fr) : PolyF :=
  let n := vals.length
  poly_normalize ⟨(List.range n).foldl (fun acc i =>
    polyAccum acc ((lagNumer n i).map (fun cc =>
      cc * fr_div 1 (lagDenom n i) * vals.getD i 0))) [0]⟩

/-! ### Evaluation lemmas for the interpolation -/

theorem evalPoly_zipWith_add : ∀ (a b : List Fr), a.length = b.length → ∀ (w : Fr),
    evalPoly (List.zipWith (fun u v => u + v) a b) w = evalPoly a w + evalPoly b w := by
  intro a
  induction a with
  | nil => intro b h w; simp [evalPoly_nil] at h ⊢; rw [List.length_eq_zero.mp h.symm]; simp [evalPoly_nil]
  | cons c t ih =>
    intro b h w
    cases b with
    | nil => simp at h
    | cons d u =>
      simp only [List.zipWith_cons_cons, evalPoly_cons]
      rw [ih u (by simpa using h) w]
      ring

theorem evalPoly_map_mul (p : List Fr) (m w : Fr) :
    evalPoly (p.map (fun cc => cc * m)) w = evalPoly p w * m := by
  induction p with
  | nil => simp [evalPoly_nil]
  | cons c t ih =>
    simp only [List.map_cons, evalPoly_cons, ih]
    ring

theorem evalPoly_append_zero (l : List Fr) (w : Fr) : evalPoly (l ++ [0]) w = evalPoly l w := by
  rw [evalPoly_append]
  simp [evalPoly_cons, evalPoly_nil]

theorem evalPoly_linMulStep (p : List Fr) (m w : Fr) :
    evalPoly (linMulStep p m) w = evalPoly p w * (m + w) := by
  unfold linMulStep
  rw [evalPoly_zipWith_add _ _ (by simp) w, evalPoly_append_zero, evalPoly_map_mul,
    evalPoly_cons]
  ring

theorem evalPoly_replicate_zero (k : ℕ) (w : Fr) :
    evalPoly (List.replicate k (0 : Fr)) w = 0 :=
  evalPoly_all_zero _ (fun x hx => (List.eq_of_mem_replicate hx)) w

theorem evalPoly_polyAccum (a b : List Fr) (w : Fr) :
    evalPoly (polyAccum a b) w = evalPoly a w + evalPoly b w := by
  unfold polyAccum
  set a2 := a ++ List.replicate (b.length - a.length) 0 with ha2
  have ha2eval : evalPoly a2 w = evalPoly a w := by
    rw [ha2, evalPoly_append, evalPoly_replicate_zero]
    ring
  have ha2len : a2.length = max a.length b.length := by
    rw [ha2]; simp [List.length_append, List.length_replicate]; omega
  have hsplit : a2 = a2.take b.length ++ a2.drop b.length := (List.take_append_drop _ _).symm
  have htklen : (a2.take b.length).length = min b.length a2.length := by simp
  have hmin : min b.length a2.length = b.length := by omega
  have hlen2 : (List.zipWith (fun u v => u + v) (a2.take b.length) b).length = b.length := by
    rw [List.length_zipWith, htklen]
    omega
  rw [evalPoly_append, evalPoly_zipWith_add _ _ (by rw [htklen, hmin]) w, hlen2]
  have ha2split : evalPoly a2 w
      = evalPoly (a2.take b.length) w + w ^ b.length * evalPoly (a2.drop b.length) w := by
    conv_lhs => rw [hsplit]
    rw [evalPoly_append, htklen, hmin]
  rw [← ha2eval, ha2split]
  ring

theorem foldl_mul_acc (f : ℕ → Fr) : ∀ (l : List ℕ) (acc : Fr),
    l.foldl (fun a j => a * f j) acc = acc * (l.map f).prod := by
  intro l
  induction l with
  | nil => intro acc; simp
  | cons j t ih =>
    intro acc
    simp only [List.foldl_cons, List.map_cons, List.prod_cons]
    rw [ih (acc * f j)]
    ring

theorem evalPoly_foldl_linMul : ∀ (js : List ℕ) (p : List Fr) (w : Fr),
    evalPoly (js.foldl (fun acc j => linMulStep acc (0 - fr_from_u64 j)) p) w
      = evalPoly p w * (js.map (fun j => w - fr_from_u64 j)).prod := by
  intro js
  induction js with
  | nil => intro p w; simp
  | cons j t ih =>
    intro p w
    simp only [List.foldl_cons, List.map_cons, List.prod_cons]
    rw [ih (linMulStep p (0 - fr_from_u64 j)) w, evalPoly_linMulStep]
    ring

theorem lagNumer_eval (n i : ℕ) (w : Fr) :
    evalPoly (lagNumer n i) w = ((lagRange n i).map (fun j => w - fr_from_u64 j)).prod := by
  unfold lagNumer
  rw [evalPoly_foldl_linMul]
  have h1 : evalPoly [1] w = 1 := by simp [evalPoly_cons, evalPoly_nil]
  rw [h1, one_mul]

theorem lagDenom_eq (n i : ℕ) :
    lagDenom n i = ((lagRange n i).map (fun j => fr_from_u64 i - fr_from_u64 j)).prod := by
  unfold lagDenom
  rw [foldl_mul_acc, one_mul]

theorem evalPoly_foldl_polyAccum (g : ℕ → List Fr) : ∀ (l : List ℕ) (acc : List Fr) (w : Fr),
    evalPoly (l.foldl (fun acc i => polyAccum acc (g i)) acc) w
      = evalPoly acc w + (l.map (fun i => evalPoly (g i) w)).sum := by
  intro l
  induction l with
  | nil => intro acc w; simp
  | cons i t ih =>
    intro acc w
    simp only [List.foldl_cons, List.map_cons, List.sum_cons]
    rw [ih (polyAccum acc (g i)) w, evalPoly_polyAccum]
    ring

theorem sum_single (f : ℕ → Fr) : ∀ (n k : ℕ), k < n → (∀ i, i < n → i ≠ k → f i = 0) →
    ((List.range n).map f).sum = f k := by
  intro n
  induction n with
  | zero => intro k hk; omega
  | succ m ih =>
    intro k hk hz
    rw [List.range_succ, List.map_append, List.sum_append]
    by_cases hkm : k = m
    · subst hkm
      have hzero : ((List.range k).map f).sum = 0 := by
        apply List.sum_eq_zero
        intro x hx
        obtain ⟨i, hi, hfi⟩ := List.mem_map.mp hx
        rw [← hfi]
        exact hz i (by simp at hi; omega) (by simp at hi; omega)
      rw [hzero]
      simp
    · have hfm : f m = 0 := hz m (by omega) (fun h => hkm h.symm)
      rw [ih k (by omega) (fun i hi hik => hz i (by omega) hik)]
      simp [hfm]

theorem fr_from_u64_small (v : ℕ) (h : v < 2 ^ 64) : fr_from_u64 v = ((v : ℕ) : Fr) := by
  unfold fr_from_u64
  rw [Nat.mod_eq_of_lt h]

theorem fr_from_u64_inj (i j : ℕ) (hi : i < 2 ^ 64) (hj : j < 2 ^ 64) :
    fr_from_u64 i = fr_from_u64 j → i = j := by
  rw [fr_from_u64_small i hi, fr_from_u64_small j hj]
  intro h
  have hmod : i % P = j % P := (ZMod.natCast_eq_natCast_iff i j P).mp h
  have hP : 2 ^ 64 < P := by decide
  rw [Nat.mod_eq_of_lt (by omega), Nat.mod_eq_of_lt (by omega)] at hmod
  exact hmod

theorem mem_lagRange (n i j : ℕ) : j ∈ lagRange n i ↔ j < n ∧ j ≠ i := by
  unfold lagRange
  simp [List.mem_filter, List.mem_range]

theorem lagDenom_ne_zero (n i : ℕ) (hn : n ≤ 2 ^ 64) (hi : i < n) : lagDenom n i ≠ 0 := by
  rw [lagDenom_eq]
  apply List.prod_ne_zero
  intro hmem
  obtain ⟨j, hj, hfj⟩ := List.mem_map.mp hmem
  obtain ⟨hjn, hji⟩ := (mem_lagRange n i j).mp hj
  have heq : fr_from_u64 i = fr_from_u64 j := sub_eq_zero.mp hfj
  exact hji (fr_from_u64_inj i j (by omega) (by omega) heq).symm

theorem evalPoly_map_mul2 (p : List Fr) (m1 m2 w : Fr) :
    evalPoly (p.map (fun cc => cc * m1 * m2)) w = evalPoly p w * m1 * m2 := by
  induction p with
  | nil => simp [evalPoly_nil]
  | cons c t ih =>
    simp only [List.map_cons, evalPoly_cons, ih]
    ring

/-- Correctness of the naive Lagrange interpolation: the interpolated
polynomial reproduces the value table on `{0, …, n-1}`. -/
theorem interpolate_eval (vals : List Fr) (k : ℕ) (hk : k < vals.length)
    (hn : vals.length ≤ 2 ^ 64) :
    evalPoly (interpolate_on_range0 vals).c (fr_from_u64 k) = vals.getD k 0 := by
  unfold interpolate_on_range0 poly_normalize
  simp only
  rw [evalPoly_stripTrailingZeros, evalPoly_foldl_polyAccum]
  have h0 : evalPoly [0] (fr_from_u64 k) = 0 := by simp [evalPoly_cons, evalPoly_nil]
  rw [h0, zero_add]
  rw [sum_single _ vals.length k hk ?hzero]
  case hzero =>
    intro i hi hik
    rw [evalPoly_map_mul2, lagNumer_eval]
    have hkmem : (0 : Fr) ∈ (lagRange vals.length i).map
        (fun j => fr_from_u64 k - fr_from_u64 j) := by
      apply List.mem_map.mpr
      exact ⟨k, (mem_lagRange vals.length i k).mpr ⟨hk, hik.symm⟩, by rw [sub_self]⟩
    rw [List.prod_eq_zero hkmem]
    ring
  rw [evalPoly_map_mul2, lagNumer_eval, ← lagDenom_eq]
  have hdz := lagDenom_ne_zero vals.length k hn hk
  rw [fr_div, frInv_eq, one_mul, mul_inv_cancel₀ hdz, one_mul]

/-! ### Size bounds for the interpolated polynomial -/

theorem linMulStep_length (p : List Fr) (m : Fr) : (linMulStep p m).length = p.length + 1 := by
  simp [linMulStep, List.length_zipWith]

theorem foldl_linMul_length : ∀ (js : List ℕ) (p : List Fr),
    (js.foldl (fun acc j => linMulStep acc (0 - fr_from_u64 j)) p).length
      = p.length + js.length := by
  intro js
  induction js with
  | nil => intro p; simp
  | cons j t ih =>
    intro p
    simp only [List.foldl_cons, List.length_cons]
    rw [ih (linMulStep p (0 - fr_from_u64 j)), linMulStep_length]
    omega

theorem lagNumer_length (n i : ℕ) : (lagNumer n i).length = (lagRange n i).length + 1 := by
  unfold lagNumer
  rw [foldl_linMul_length]
  simp [Nat.add_comm]

theorem lagRange_length_lt (n i : ℕ) (hi : i < n) : (lagRange n i).length < n := by
  unfold lagRange
  have hle : ((List.range n).filter (fun j => decide (j ≠ i))).length ≤ n := by
    have := (List.filter_sublist (l := List.range n) (p := fun j => decide (j ≠ i))).length_le
    simpa using this
  by_contra hcon
  have heq : ((List.range n).filter (fun j => decide (j ≠ i))).length = n := by
    simp only [not_lt] at hcon
    omega
  have hfull : (List.range n).filter (fun j => decide (j ≠ i)) = List.range n :=
    (List.filter_sublist (l := List.range n) (p := fun j => decide (j ≠ i))).eq_of_length
      (by simpa using heq)
  have hi2 : i ∈ (List.range n).filter (fun j => decide (j ≠ i)) := by
    rw [hfull]; exact List.mem_range.mpr hi
  simp [List.mem_filter] at hi2

theorem polyAccum_length (a b : List Fr) : (polyAccum a b).length = max a.length b.length := by
  unfold polyAccum
  simp only [List.length_append, List.length_zipWith, List.length_take, List.length_drop,
    List.length_replicate]
  omega

theorem interp_fold_length (n : ℕ) (vals : List Fr) : ∀ (l : List ℕ) (acc : List Fr),
    (∀ i ∈ l, i < n) → acc.length ≤ max 1 n →
    (l.foldl (fun acc i => polyAccum acc ((lagNumer n i).map (fun cc =>
      cc * fr_div 1 (lagDenom n i) * vals.getD i 0))) acc).length ≤ max 1 n := by
  intro l
  induction l with
  | nil => intro acc _ hacc; exact hacc
  | cons i t ih =>
    intro acc hmem hacc
    simp only [List.foldl_cons]
    apply ih
    · intro j hj; exact hmem j (by simp [hj])
    · rw [polyAccum_length, List.length_map, lagNumer_length]
      have := lagRange_length_lt n i (hmem i (by simp))
      omega

theorem interpolate_length_le (vals : List Fr) :
    (interpolate_on_range0 vals).c.length ≤ max 1 vals.length := by
  unfold interpolate_on_range0 poly_normalize
  simp only
  calc (stripTrailingZeros _).length
      ≤ _ := stripTrailingZeros_length_le _
    _ ≤ max 1 vals.length := by
      apply interp_fold_length
      · intro i hi; exact List.mem_range.mp hi
      · simp

/-! ## VM opcodes, trace rows and public objects (both .cpp files) -/

def OP_PUSH : ℕ := 0
def OP_ADD : ℕ := 1
def OP_MUL : ℕ := 2
def OP_SUB : ℕ := 3
def OP_AND : ℕ := 4
def OP_OR : ℕ := 5
def OP_HALT : ℕ := 255

/-- `struct TraceRow { uint32_t pc; Fr opcode,x,y,z,is_halt; int64_t x_raw,y_raw,z_raw; }`. -/
structure TraceRow where
  pc : ℕ
  opcode : Fr
  x : Fr
  y : Fr
  z : Fr
  is_halt : Fr
  x_raw : ℤ
  y_raw : ℤ
  z_raw : ℤ
deriving DecidableEq, Inhabited

structure CodeCommit where
  code_sha : List ℕ
  code_comm_kzg_base : Fr
  code_size : ℕ
  source_kind : String
deriving DecidableEq

structure PublicInstance where
  domain_tag : List ℕ
  input_sha : List ℕ
deriving DecidableEq

structure KZGOpening where
  idx : ℕ
  value : Fr
  witness : Fr
deriving DecidableEq

structure LUTOpening where
  idx : ℕ
  x_val : Fr
  y_val : Fr
  z_val : Fr
  op_val : Fr
  x_wit : Fr
  y_wit : Fr
  z_wit : Fr
  op_wit : Fr
deriving DecidableEq

structure RowOpening where
  idx : ℕ
  pc_i : Fr
  pc_ip1 : Fr
  pc_wit_i : Fr
  pc_wit_ip1 : Fr
  op_i : Fr
  op_wit_i : Fr
  x_i : Fr
  x_wit_i : Fr
  y_i : Fr
  y_wit_i : Fr
  z_i : Fr
  z_wit_i : Fr
  h_i : Fr
  h_wit_i : Fr
deriving DecidableEq

structure Proof where
  code_sha : List ℕ
  domain_tag : List ℕ
  input_sha : List ℕ
  code_comm_kzg_sess : Fr
  pc_comm : Fr
  op_comm : Fr
  z_comm : Fr
  x_comm : Fr
  y_comm : Fr
  h_comm : Fr
  lut_x_comm : Fr
  lut_y_comm : Fr
  lut_z_comm : Fr
  lut_op_comm : Fr
  trace_pow2 : ℕ
  trace_len : ℕ
  sc : SumcheckProof
  op_openings : List KZGOpening
  lut_openings : List LUTOpening
  row_openings : List RowOpening
  final_output : ℕ
deriving DecidableEq

/-- ASCII bytes of `"code-blind"`. -/
def codeBlindBytes : List ℕ := [99, 111, 100, 101, 45, 98, 108, 105, 110, 100]

/-- `blinding_poly_from_domain_tag`: coefficient `i` is the top 8 bytes of
`SHA256("code-blind" || tag || byte i)` lifted into `Fr`; then normalized. -/
def blinding_poly_from_domain_tag (tag : List ℕ) (d_b : ℕ) : PolyF :=
  poly_normalize ⟨(List.range (d_b + 1)).map (fun i =>
    fr_from_u64 (beVal ((sha256 (codeBlindBytes ++ tag ++ [i % 256])).take 8)))⟩

/-- The global transition-constraint table of `prove_from_trace`:
`f[i] = (pc[i+1] - (pc[i]+1)) * (1 - h[i])` for `i + 1 < T`, else `0`. -/
def transitionTable (col_pc col_h : List Fr) (T pow2 : ℕ) : List Fr :=
  (List.range pow2).map (fun i =>
    if i + 1 < T then (col_pc.getD (i + 1) 0 - (col_pc.getD i 0 + 1)) * (1 - col_h.getD i 0)
    else 0)

/-! ## Prover (`prove_from_trace`, fidesinnova.cpp lines 625-724)

The LUT block loads `lut_and_or_*.txt` from disk (external I/O); the model
takes the environment without those files, in which the `uses_logic` branch
throws at the first `load_poly_from_file` and the `catch` clears the LUT
commitments and openings — byte-for-byte the behaviour of the
`uses_logic = false` path (nothing is absorbed before the first load). -/

def traceColumns (trc : List TraceRow) (pow2 : ℕ) :
    List Fr × List Fr × List Fr × List Fr × List Fr × List Fr :=
  let pad := List.replicate (pow2 - trc.length) (0 : Fr)
  (trc.map (fun r => fr_from_u64 r.pc) ++ pad,
   trc.map (fun r => r.opcode) ++ pad,
   trc.map (fun r => r.z) ++ pad,
   trc.map (fun r => r.is_halt) ++ pad,
   trc.map (fun r => r.x) ++ pad,
   trc.map (fun r => r.y) ++ pad)

def openRow (pp : KZGParams) (pc_poly op_poly x_poly y_poly z_poly h_poly : PolyF)
    (i : ℕ) : Option RowOpening := do
  let pcv ← kzg_open pp pc_poly (fr_from_u64 i)
  let pcv2 ← kzg_open pp pc_poly (fr_from_u64 (i + 1))
  let opv ← kzg_open pp op_poly (fr_from_u64 i)
  let xv ← kzg_open pp x_poly (fr_from_u64 i)
  let yv ← kzg_open pp y_poly (fr_from_u64 i)
  let zv ← kzg_open pp z_poly (fr_from_u64 i)
  let hv ← kzg_open pp h_poly (fr_from_u64 i)
  pure { idx := i, pc_i := pcv.1, pc_ip1 := pcv2.1, pc_wit_i := pcv.2, pc_wit_ip1 := pcv2.2,
         op_i := opv.1, op_wit_i := opv.2, x_i := xv.1, x_wit_i := xv.2,
         y_i := yv.1, y_wit_i := yv.2, z_i := zv.1, z_wit_i := zv.2,
         h_i := hv.1, h_wit_i := hv.2 }

def prove_from_trace (pp : KZGParams) (cc : CodeCommit) (inst : PublicInstance)
    (trc : List TraceRow) (uses_logic : Bool) (k_lookup k_rows_spot : ℕ) : Option Proof := do
  let T := trc.length
  let pow2 := 2 ^ ceilLog2 T
  let cols := traceColumns trc pow2
  let col_pc := cols.1
  let col_op := cols.2.1
  let col_z := cols.2.2.1
  let col_h := cols.2.2.2.1
  let col_x := cols.2.2.2.2.1
  let col_y := cols.2.2.2.2.2
  let pc_poly := interpolate_on_range0 col_pc
  let op_poly := interpolate_on_range0 col_op
  let z_poly := interpolate_on_range0 col_z
  let x_poly := interpolate_on_range0 col_x
  let y_poly := interpolate_on_range0 col_y
  let h_poly := interpolate_on_range0 col_h
  let pc_comm ← kzg_commit pp pc_poly
  let op_comm ← kzg_commit pp op_poly
  let z_comm ← kzg_commit pp z_poly
  let x_comm ← kzg_commit pp x_poly
  let y_comm ← kzg_commit pp y_poly
  let h_comm ← kzg_commit pp h_poly
  let f := transitionTable col_pc col_h T pow2
  let bpoly := blinding_poly_from_domain_tag inst.domain_tag 8
  let B ← kzg_commit pp bpoly
  let C_sess := cc.code_comm_kzg_base + B
  let tr0 := ((((Transcript.mk []).absorb inst.domain_tag).absorb
    inst.input_sha).absorb cc.code_sha).absorb_g1 C_sess
  let tr1 := (((((tr0.absorb_g1 pc_comm).absorb_g1 op_comm).absorb_g1
    z_comm).absorb_g1 x_comm).absorb_g1 y_comm).absorb_g1 h_comm
  let scr ← sumcheck_prove f tr1
  let sc := scr.1
  let tr2 := scr.2
  let seed := tr2.squeeze
  let idxs := derive_indices seed T 4
  let op_openings ← idxs.mapM (fun idx =>
    (kzg_open pp op_poly (fr_from_u64 idx)).map (fun vw => KZGOpening.mk idx vw.1 vw.2))
  let row_openings ← (if 2 ≤ T then do
      let row_seed := sha256 (seed ++ [0x52])
      let row_indices := derive_indices row_seed (T - 1) 4
      row_indices.mapM (openRow pp pc_poly op_poly x_poly y_poly z_poly h_poly)
    else pure [])
  pure { code_sha := cc.code_sha, domain_tag := inst.domain_tag, input_sha := inst.input_sha,
         code_comm_kzg_sess := C_sess,
         pc_comm := pc_comm, op_comm := op_comm, z_comm := z_comm,
         x_comm := x_comm, y_comm := y_comm, h_comm := h_comm,
         lut_x_comm := 0, lut_y_comm := 0, lut_z_comm := 0, lut_op_comm := 0,
         trace_pow2 := pow2 % 2 ^ 32, trace_len := T % 2 ^ 32,
         sc := sc, op_openings := op_openings, lut_openings := [],
         row_openings := row_openings,
         final_output := ((trc.getLastD default).z_raw % 2 ^ 64).toNat }

/-! ## Verifier (`verify_proof`, fidesinnova.cpp lines 727-824, and jolt's
`verify`, jolt_style_gdb.cpp lines 750-851) -/

inductive VResult where
  | accept : VResult
  | reject : String → VResult
  | panic : VResult
deriving DecidableEq

/-- The allowed opcode tags, in the order of the verifier's `allowed_fr`. -/
def allowed_fr : List Fr :=
  [fr_from_u64 OP_PUSH, fr_from_u64 OP_ADD, fr_from_u64 OP_MUL,
   fr_from_u64 OP_SUB, fr_from_u64 OP_AND, fr_from_u64 OP_OR, fr_from_u64 OP_HALT]

/-- `!lut_x_comm.isZero() || …`: whether any LUT commitment is present. -/
def lutPresent (proof : Proof) : Bool :=
  !(proof.lut_x_comm == 0) || !(proof.lut_y_comm == 0) ||
  !(proof.lut_z_comm == 0) || !(proof.lut_op_comm == 0)

/-- The verifier's transcript after the header absorptions (domain tag,
input sha, code sha, session code commitment, six column commitments, and
the LUT commitments when present). -/
def headerTranscript (proof : Proof) : Transcript :=
  let tr := (((((((((Transcript.mk []).absorb proof.domain_tag).absorb
    proof.input_sha).absorb proof.code_sha).absorb_g1
    proof.code_comm_kzg_sess).absorb_g1 proof.pc_comm).absorb_g1
    proof.op_comm).absorb_g1 proof.z_comm).absorb_g1 proof.x_comm).absorb_g1 proof.y_comm
  let tr := tr.absorb_g1 proof.h_comm
  if lutPresent proof then
    (((tr.absorb_g1 proof.lut_x_comm).absorb_g1 proof.lut_y_comm).absorb_g1
      proof.lut_z_comm).absorb_g1 proof.lut_op_comm
  else tr

/-- The opcode-opening loop of the verifier: first failing check wins. -/
def check_op_openings (pp : KZGParams) (op_comm : Fr) :
    List ℕ → List KZGOpening → Option String
  | idx :: idxs, o :: os =>
    if o.idx ≠ idx then some "opcode opening idx mismatch"
    else if ¬(kzg_verify pp op_comm (fr_from_u64 o.idx) o.value o.witness = true) then
      some "opcode opening pairing fail"
    else if ¬(allowed_fr.contains o.value = true) then some "opcode not allowed"
    else check_op_openings pp op_comm idxs os
  | _, _ => none

/-- The pc-transition and per-opcode semantic portion of the row loop
(`verify_proof` lines 803-821): dispatches on `fr_to_u64` of the opened
opcode and compares `uint64_t` foldings (wrapping arithmetic). -/
def row_semantic_check (ro : RowOpening) : Option String :=
  if ro.h_i = 0 ∧ ¬(ro.pc_ip1 = ro.pc_i + 1) then some "pc local transition fail"
  else
    let opv := fr_to_u64 ro.op_i
    let xv := fr_to_u64 ro.x_i
    let yv := fr_to_u64 ro.y_i
    let zv := fr_to_u64 ro.z_i
    if opv = OP_PUSH then none
    else if opv = OP_ADD then
      if zv ≠ (xv + yv) % 2 ^ 64 then some "ADD semantics" else none
    else if opv = OP_SUB then
      if zv ≠ (xv + (2 ^ 64 - yv)) % 2 ^ 64 then some "SUB semantics" else none
    else if opv = OP_MUL then
      if zv ≠ xv * yv % 2 ^ 64 then some "MUL semantics" else none
    else if opv = OP_AND then
      if zv % 16 ≠ Nat.land (xv % 16) (yv % 16) then some "AND semantics" else none
    else if opv = OP_OR then
      if zv % 16 ≠ Nat.lor (xv % 16) (yv % 16) then some "OR semantics" else none
    else if opv = OP_HALT then none
    else some "unexpected opcode in row check"

/-- The row-opening loop of the verifier: index check, seven pairing checks,
then the local-transition/semantic checks. -/
def check_row_openings (pp : KZGParams) (proof : Proof) :
    List ℕ → List RowOpening → Option String
  | i :: is, ro :: ros =>
    if ro.idx ≠ i then some "row opening idx mismatch"
    else
      let zi := fr_from_u64 ro.idx
      let zip := fr_from_u64 (ro.idx + 1)
      if ¬(kzg_verify pp proof.pc_comm zi ro.pc_i ro.pc_wit_i = true) then
        some "pc[i] opening fail"
      else if ¬(kzg_verify pp proof.pc_comm zip ro.pc_ip1 ro.pc_wit_ip1 = true) then
        some "pc[i+1] opening fail"
      else if ¬(kzg_verify pp proof.op_comm zi ro.op_i ro.op_wit_i = true) then
        some "op[i] opening fail"
      else if ¬(kzg_verify pp proof.x_comm zi ro.x_i ro.x_wit_i = true) then
        some "x[i] opening fail"
      else if ¬(kzg_verify pp proof.y_comm zi ro.y_i ro.y_wit_i = true) then
        some "y[i] opening fail"
      else if ¬(kzg_verify pp proof.z_comm zi ro.z_i ro.z_wit_i = true) then
        some "z[i] opening fail"
      else if ¬(kzg_verify pp proof.h_comm zi ro.h_i ro.h_wit_i = true) then
        some "h[i] opening fail"
      else
        match row_semantic_check ro with
        | some r => some r
        | none => check_row_openings pp proof is ros
  | _, _ => none

/-- The stages of `verify_proof` after the sum-check: index derivation,
opcode-opening checks, row-opening checks. -/
def verify_tail (pp : KZGParams) (proof : Proof) (seed : List ℕ)
    (k_lookup k_rows_spot : ℕ) : VResult :=
  let idxs := derive_indices seed proof.trace_len k_lookup
  if idxs.length ≠ proof.op_openings.length then VResult.reject "opcode opening size mismatch"
  else
    match check_op_openings pp proof.op_comm idxs proof.op_openings with
    | some r => VResult.reject r
    | none =>
      if proof.trace_len < 2 then VResult.accept
      else
        let row_seed := sha256 (seed ++ [0x52])
        let row_indices := derive_indices row_seed (proof.trace_len - 1) k_rows_spot
        if proof.row_openings.length ≠ row_indices.length then
          VResult.reject "row openings size mismatch"
        else
          match check_row_openings pp proof row_indices proof.row_openings with
          | some r => VResult.reject r
          | none => VResult.accept

/-- `verify_proof` (fidesinnova.cpp).  Note: no `input_sha` comparison, and
both spot-check streams are drawn with the hard-coded count 4. -/
def verify_proof (pp : KZGParams) (cc : CodeCommit) (inst : PublicInstance)
    (proof : Proof) : VResult :=
  match kzg_commit pp (blinding_poly_from_domain_tag inst.domain_tag 8) with
  | none => VResult.panic
  | some B =>
    let C_sess := cc.code_comm_kzg_base + B
    if proof.code_sha ≠ cc.code_sha then VResult.reject "code sha mismatch"
    else if ¬(proof.code_comm_kzg_sess = C_sess) then VResult.reject "code KZG (session) mismatch"
    else if proof.domain_tag ≠ inst.domain_tag then VResult.reject "domain tag mismatch"
    else if proof.trace_len = 0 ∨ proof.trace_pow2 = 0 ∨ proof.trace_pow2 < proof.trace_len then
      VResult.reject "invalid trace sizes"
    else if ¬(lutPresent proof = true) ∧ proof.lut_openings ≠ [] then
      VResult.reject "unexpected LUT openings"
    else
      let sv := sumcheck_verify proof.sc (headerTranscript proof) proof.sc.claimed_sum
      if ¬(sv.1 = true) then VResult.reject "sumcheck failed"
      else verify_tail pp proof sv.2.squeeze 4 4

/-- `verify` (jolt_style_gdb.cpp): identical to `verify_proof` except that it
also rejects on an `input_sha` mismatch, and that the spot-check counts are
the `k_lookup` / `k_rows_spot` parameters. -/
def verify_jolt (pp : KZGParams) (cc : CodeCommit) (inst : PublicInstance)
    (proof : Proof) (k_lookup k_rows_spot : ℕ) : VResult :=
  match kzg_commit pp (blinding_poly_from_domain_tag inst.domain_tag 8) with
  | none => VResult.panic
  | some B =>
    let C_sess := cc.code_comm_kzg_base + B
    if proof.code_sha ≠ cc.code_sha then VResult.reject "code sha mismatch"
    else if ¬(proof.code_comm_kzg_sess = C_sess) then VResult.reject "code KZG (session) mismatch"
    else if proof.domain_tag ≠ inst.domain_tag then VResult.reject "domain tag mismatch"
    else if proof.input_sha ≠ inst.input_sha then VResult.reject "input hash mismatch"
    else if proof.trace_len = 0 ∨ proof.trace_pow2 = 0 ∨ proof.trace_pow2 < proof.trace_len then
      VResult.reject "invalid trace sizes"
    else if ¬(lutPresent proof = true) ∧ proof.lut_openings ≠ [] then
      VResult.reject "unexpected LUT openings"
    else
      let sv := sumcheck_verify proof.sc (headerTranscript proof) proof.sc.claimed_sum
      if ¬(sv.1 = true) then VResult.reject "sumcheck failed"
      else verify_tail pp proof sv.2.squeeze k_lookup k_rows_spot

/-! ## Valid traces (spec §3 / §6: dense pc, allowed opcodes, halt only last) -/

/-- A valid trace: non-empty, every opcode tag in the allowed set, `pc` the
dense sequence `0,1,2,…`, and `is_halt = 1` allowed only on the last row. -/
def validTraceB (trc : List TraceRow) : Bool :=
  !trc.isEmpty &&
  (List.range trc.length).all (fun i =>
    let r := trc.getD i default
    r.pc == i && allowed_fr.contains r.opcode &&
    (if i + 1 < trc.length then r.is_halt == 0 else (r.is_halt == 0 || r.is_halt == 1)))

theorem validTraceB_ne_nil (trc : List TraceRow) (h : validTraceB trc = true) : trc ≠ [] := by
  unfold validTraceB at h
  simp only [Bool.and_eq_true, Bool.not_eq_true'] at h
  intro hnil
  rw [hnil] at h
  simp at h

theorem validTraceB_row (trc : List TraceRow) (h : validTraceB trc = true) (i : ℕ)
    (hi : i < trc.length) :
    (trc.getD i default).pc = i ∧ (trc.getD i default).opcode ∈ allowed_fr ∧
      (i + 1 < trc.length → (trc.getD i default).is_halt = 0) := by
  unfold validTraceB at h
  simp only [Bool.and_eq_true, List.all_eq_true] at h
  have hrow := h.2 i (List.mem_range.mpr hi)
  simp only [Bool.and_eq_true, beq_iff_eq] at hrow
  refine ⟨hrow.1.1, ?_, ?_⟩
  · have := hrow.1.2
    simpa using this
  · intro hlt
    have := hrow.2
    rw [if_pos hlt] at this
    simpa using this

/-! ## Generic helpers used by the end-to-end completeness proof -/

theorem getD_append_lt {α : Type} [Inhabited α] (l1 l2 : List α) (k : ℕ) (hk : k < l1.length)
    (d : α) : (l1 ++ l2).getD k d = l1.getD k d := by
  simp [List.getD_eq_getElem?_getD, List.getElem?_append_left hk]

theorem getD_map_lt (f : TraceRow → Fr) (l : List TraceRow) (k : ℕ) (hk : k < l.length) :
    (l.map f).getD k 0 = f (l.getD k default) := by
  have h1 : l[k]? = some l[k] := List.getElem?_eq_getElem hk
  simp [List.getD_eq_getElem?_getD, List.getElem?_map, h1]

theorem getD_replicate_region {α : Type} [Inhabited α] (l1 : List α) (m k : ℕ) (d v : α)
    (hk : l1.length ≤ k) : (l1 ++ List.replicate m v).getD k d
      = (List.replicate m v).getD (k - l1.length) d := by
  simp [List.getD_eq_getElem?_getD, List.getElem?_append_right hk]

/-- `fr_to_u64` reads the top eight bytes of the 32-byte little-endian
serialization; for any element whose canonical value is below `2^192` these
are all zero, so the result is `0`. -/
theorem fr_to_u64_of_small (x : Fr) (h : x.val < 2 ^ 192) : fr_to_u64 x = 0 := by
  unfold fr_to_u64 frBytes toLEBytes
  have hdrop : ((List.range 32).map (fun i => x.val / 256 ^ i % 256)).drop 24
      = ((List.range 32).drop 24).map (fun i => x.val / 256 ^ i % 256) := by
    rw [List.map_drop]
  rw [hdrop]
  have hrange : (List.range 32).drop 24 = [24, 25, 26, 27, 28, 29, 30, 31] := by decide
  rw [hrange]
  have hz : ∀ j : ℕ, 24 ≤ j → x.val / 256 ^ j % 256 = 0 := by
    intro j hj
    have h24 : (2 : ℕ) ^ 192 ≤ 256 ^ j := by
      calc (2 : ℕ) ^ 192 = 256 ^ 24 := by norm_num
        _ ≤ 256 ^ j := Nat.pow_le_pow_right (by norm_num) hj
    rw [Nat.div_eq_of_lt (by omega)]
  simp only [List.map_cons, List.map_nil]
  rw [hz 24 (by norm_num), hz 25 (by norm_num), hz 26 (by norm_num), hz 27 (by norm_num),
    hz 28 (by norm_num), hz 29 (by norm_num), hz 30 (by norm_num), hz 31 (by norm_num)]
  decide

theorem val_fr_from_u64_small (v : ℕ) (h : v < 2 ^ 64) : (fr_from_u64 v).val = v := by
  rw [fr_from_u64_small v h]
  exact ZMod.val_cast_of_lt (lt_trans h (show (2:ℕ) ^ 64 < P by decide))

theorem fr_from_u64_succ (i : ℕ) (h : i + 1 < 2 ^ 64) :
    fr_from_u64 (i + 1) = fr_from_u64 i + 1 := by
  rw [fr_from_u64_small (i + 1) h, fr_from_u64_small i (by omega)]
  push_cast
  ring

/-- Pointwise-successful `mapM` over `Option` with a carried specification. -/
theorem mapM_option_spec {α β : Type} (f : α → Option β) (Q : α → β → Prop) :
    ∀ (l : List α), (∀ x ∈ l, ∃ y, f x = some y ∧ Q x y) →
      ∃ ys, l.mapM f = some ys ∧ List.Forall₂ Q l ys := by
  intro l
  induction l with
  | nil => intro _; exact ⟨[], rfl, List.Forall₂.nil⟩
  | cons a t ih =>
    intro hall
    obtain ⟨y, hy, hQ⟩ := hall a (by simp)
    obtain ⟨ys, hys, hF⟩ := ih (fun x hx => hall x (by simp [hx]))
    refine ⟨y :: ys, ?_, List.Forall₂.cons hQ hF⟩
    rw [List.mapM_cons, hy, hys]
    rfl

/-- Success and characterization of the honest `kzg_open` against honest
parameters: the value is the polynomial's evaluation and the witness passes
the pairing check against the honest commitment. -/
theorem kzg_open_spec (max_deg : ℕ) (s z : Fr) (f : PolyF) (hlen : f.c.length ≤ max_deg + 1) :
    ∃ w, kzg_open (mkKZGParams max_deg s) f z = some (evalPoly f.c z, w) ∧
      kzg_verify (mkKZGParams max_deg s) (evalPoly f.c s) z (evalPoly f.c z) w = true := by
  by_cases hemp : f.c = []
  · refine ⟨0, ?_, ?_⟩
    · unfold kzg_open
      rw [if_pos (by simp [hemp])]
      rw [hemp, evalPoly_nil]
    · simp only [kzg_verify, mkKZGParams, decide_eq_true_eq, hemp, evalPoly_nil]
      ring
  · have hqlen : (poly_normalize ⟨(divXminusZ f.c z).1⟩).c.length ≤ max_deg + 1 := by
      calc (stripTrailingZeros (divXminusZ f.c z).1).length
          ≤ ((divXminusZ f.c z).1).length := stripTrailingZeros_length_le _
        _ = f.c.length - 1 := divXminusZ_length f.c z hemp
        _ ≤ max_deg + 1 := by omega
    have hopen : kzg_open (mkKZGParams max_deg s) f z
        = some (evalPoly f.c z,
            evalPoly (poly_normalize ⟨(divXminusZ f.c z).1⟩).c s) := by
      rw [kzg_open_eq _ _ _ hemp, kzg_commit_powers _ _ _ hqlen]
      rfl
    refine ⟨_, hopen, ?_⟩
    exact kzg_complete max_deg s z f hlen _ _ _ (kzg_commit_powers _ _ _ hlen) hopen

/-- The opcode-opening loop accepts honestly produced openings. -/
theorem check_op_openings_none (pp : KZGParams) (C : Fr) :
    ∀ (idxs : List ℕ) (os : List KZGOpening),
      List.Forall₂ (fun (idx : ℕ) (o : KZGOpening) => o.idx = idx ∧
        kzg_verify pp C (fr_from_u64 o.idx) o.value o.witness = true ∧
        allowed_fr.contains o.value = true) idxs os →
      check_op_openings pp C idxs os = none := by
  intro idxs
  induction idxs with
  | nil =>
    intro os hF
    cases hF
    rfl
  | cons idx t ih =>
    intro os hF
    cases os with
    | nil => cases hF
    | cons o os2 =>
      cases hF with
      | cons hQ hrest =>
        obtain ⟨hidx, hpair, hallow⟩ := hQ
        have h1 : ¬(o.idx ≠ idx) := by simp [hidx]
        unfold check_op_openings
        rw [if_neg h1, if_neg (by simp [hpair]), if_neg (by simpa using hallow)]
        exact ih _ hrest

/-- The row-opening loop accepts honestly produced openings. -/
theorem check_row_openings_none (pp : KZGParams) (proof : Proof) :
    ∀ (is : List ℕ) (ros : List RowOpening),
      List.Forall₂ (fun (i : ℕ) (ro : RowOpening) => ro.idx = i ∧
        kzg_verify pp proof.pc_comm (fr_from_u64 ro.idx) ro.pc_i ro.pc_wit_i = true ∧
        kzg_verify pp proof.pc_comm (fr_from_u64 (ro.idx + 1)) ro.pc_ip1 ro.pc_wit_ip1 = true ∧
        kzg_verify pp proof.op_comm (fr_from_u64 ro.idx) ro.op_i ro.op_wit_i = true ∧
        kzg_verify pp proof.x_comm (fr_from_u64 ro.idx) ro.x_i ro.x_wit_i = true ∧
        kzg_verify pp proof.y_comm (fr_from_u64 ro.idx) ro.y_i ro.y_wit_i = true ∧
        kzg_verify pp proof.z_comm (fr_from_u64 ro.idx) ro.z_i ro.z_wit_i = true ∧
        kzg_verify pp proof.h_comm (fr_from_u64 ro.idx) ro.h_i ro.h_wit_i = true ∧
        row_semantic_check ro = none) is ros →
      check_row_openings pp proof is ros = none := by
  intro is
  induction is with
  | nil =>
    intro ros hF
    cases hF
    rfl
  | cons i t ih =>
    intro ros hF
    cases ros with
    | nil => cases hF
    | cons ro ros2 =>
      cases hF with
      | cons hQ hrest =>
        obtain ⟨hidx, h1, h2, h3, h4, h5, h6, h7, hsem⟩ := hQ
        have hnidx : ¬(ro.idx ≠ i) := by simp [hidx]
        unfold check_row_openings
        rw [if_neg hnidx, if_neg (by simp [h1]), if_neg (by simp [h2]), if_neg (by simp [h3]),
          if_neg (by simp [h4]), if_neg (by simp [h5]), if_neg (by simp [h6]),
          if_neg (by simp [h7]), hsem]
        exact ih _ hrest

set_option maxHeartbeats 4000000 in
/-- Every allowed opcode tag folds to `0` under `fr_to_u64` (the top bytes of
a small field element's little-endian serialization vanish). -/
theorem fr_to_u64_allowed_zero (x : Fr) (h : x ∈ allowed_fr) : fr_to_u64 x = 0 := by
  fin_cases h <;> decide

theorem row_semantic_check_none (ro : RowOpening) (hpc : ro.pc_ip1 = ro.pc_i + 1)
    (hop : fr_to_u64 ro.op_i = 0) : row_semantic_check ro = none := by
  unfold row_semantic_check
  rw [if_neg (by simp [hpc])]
  simp only [hop, OP_PUSH, if_pos]

/-- Success and characterization of one honest `openRow`. -/
theorem openRow_spec (max_deg : ℕ) (s : Fr)
    (pcP opP xP yP zP hP : PolyF) (i : ℕ)
    (hl1 : pcP.c.length ≤ max_deg + 1) (hl2 : opP.c.length ≤ max_deg + 1)
    (hl3 : xP.c.length ≤ max_deg + 1) (hl4 : yP.c.length ≤ max_deg + 1)
    (hl5 : zP.c.length ≤ max_deg + 1) (hl6 : hP.c.length ≤ max_deg + 1) :
    ∃ ro, openRow (mkKZGParams max_deg s) pcP opP xP yP zP hP i = some ro ∧
      ro.idx = i ∧
      ro.pc_i = evalPoly pcP.c (fr_from_u64 i) ∧
      ro.pc_ip1 = evalPoly pcP.c (fr_from_u64 (i + 1)) ∧
      ro.op_i = evalPoly opP.c (fr_from_u64 i) ∧
      ro.x_i = evalPoly xP.c (fr_from_u64 i) ∧
      ro.y_i = evalPoly yP.c (fr_from_u64 i) ∧
      ro.z_i = evalPoly zP.c (fr_from_u64 i) ∧
      ro.h_i = evalPoly hP.c (fr_from_u64 i) ∧
      kzg_verify (mkKZGParams max_deg s) (evalPoly pcP.c s) (fr_from_u64 i) ro.pc_i ro.pc_wit_i = true ∧
      kzg_verify (mkKZGParams max_deg s) (evalPoly pcP.c s) (fr_from_u64 (i + 1)) ro.pc_ip1 ro.pc_wit_ip1 = true ∧
      kzg_verify (mkKZGParams max_deg s) (evalPoly opP.c s) (fr_from_u64 i) ro.op_i ro.op_wit_i = true ∧
      kzg_verify (mkKZGParams max_deg s) (evalPoly xP.c s) (fr_from_u64 i) ro.x_i ro.x_wit_i = true ∧
      kzg_verify (mkKZGParams max_deg s) (evalPoly yP.c s) (fr_from_u64 i) ro.y_i ro.y_wit_i = true ∧
      kzg_verify (mkKZGParams max_deg s) (evalPoly zP.c s) (fr_from_u64 i) ro.z_i ro.z_wit_i = true ∧
      kzg_verify (mkKZGParams max_deg s) (evalPoly hP.c s) (fr_from_u64 i) ro.h_i ro.h_wit_i = true := by
  obtain ⟨w1, ho1, hv1⟩ := kzg_open_spec max_deg s (fr_from_u64 i) pcP hl1
  obtain ⟨w2, ho2, hv2⟩ := kzg_open_spec max_deg s (fr_from_u64 (i + 1)) pcP hl1
  obtain ⟨w3, ho3, hv3⟩ := kzg_open_spec max_deg s (fr_from_u64 i) opP hl2
  obtain ⟨w4, ho4, hv4⟩ := kzg_open_spec max_deg s (fr_from_u64 i) xP hl3
  obtain ⟨w5, ho5, hv5⟩ := kzg_open_spec max_deg s (fr_from_u64 i) yP hl4
  obtain ⟨w6, ho6, hv6⟩ := kzg_open_spec max_deg s (fr_from_u64 i) zP hl5
  obtain ⟨w7, ho7, hv7⟩ := kzg_open_spec max_deg s (fr_from_u64 i) hP hl6
  refine ⟨RowOpening.mk i (evalPoly pcP.c (fr_from_u64 i))
      (evalPoly pcP.c (fr_from_u64 (i + 1))) w1 w2
      (evalPoly opP.c (fr_from_u64 i)) w3
      (evalPoly xP.c (fr_from_u64 i)) w4
      (evalPoly yP.c (fr_from_u64 i)) w5
      (evalPoly zP.c (fr_from_u64 i)) w6
      (evalPoly hP.c (fr_from_u64 i)) w7, ?_,
    rfl, rfl, rfl, rfl, rfl, rfl, rfl, rfl, hv1, hv2, hv3, hv4, hv5, hv6, hv7⟩
  unfold openRow
  rw [ho1, ho2, ho3, ho4, ho5, ho6, ho7]
  rfl

/-! ## End-to-end completeness (prover/verifier round trip) -/

theorem option_bind_some {α β : Type} (a : α) (f : α → Option β) :
    (some a >>= f : Option β) = f a := rfl

theorem option_pure_eq_some {α : Type} (a : α) : (pure a : Option α) = some a := rfl

/-- The per-opening facts that make the verifier's opcode loop pass. -/
def opRel (pp : KZGParams) (copm : Fr) (idx : ℕ) (o : KZGOpening) : Prop :=
  o.idx = idx ∧ kzg_verify pp copm (fr_from_u64 o.idx) o.value o.witness = true ∧
  allowed_fr.contains o.value = true

/-- The per-opening facts that make the verifier's row loop pass. -/
def rowRel (pp : KZGParams) (cpc copm cx cy cz ch : Fr) (i : ℕ) (ro : RowOpening) : Prop :=
  ro.idx = i ∧
  kzg_verify pp cpc (fr_from_u64 ro.idx) ro.pc_i ro.pc_wit_i = true ∧
  kzg_verify pp cpc (fr_from_u64 (ro.idx + 1)) ro.pc_ip1 ro.pc_wit_ip1 = true ∧
  kzg_verify pp copm (fr_from_u64 ro.idx) ro.op_i ro.op_wit_i = true ∧
  kzg_verify pp cx (fr_from_u64 ro.idx) ro.x_i ro.x_wit_i = true ∧
  kzg_verify pp cy (fr_from_u64 ro.idx) ro.y_i ro.y_wit_i = true ∧
  kzg_verify pp cz (fr_from_u64 ro.idx) ro.z_i ro.z_wit_i = true ∧
  kzg_verify pp ch (fr_from_u64 ro.idx) ro.h_i ro.h_wit_i = true ∧
  row_semantic_check ro = none

/-- With matching input hashes and the hard-coded spot-check counts, jolt's
`verify` decides exactly as fidesinnova's `verify_proof`. -/
theorem verify_jolt_eq_verify_proof (pp : KZGParams) (cc : CodeCommit) (inst : PublicInstance)
    (proof : Proof) (h : proof.input_sha = inst.input_sha) :
    verify_jolt pp cc inst proof 4 4 = verify_proof pp cc inst proof := by
  unfold verify_jolt verify_proof
  cases kzg_commit pp (blinding_poly_from_domain_tag inst.domain_tag 8) with
  | none => rfl
  | some B =>
    simp only
    by_cases h1 : proof.code_sha ≠ cc.code_sha
    · rw [if_pos h1, if_pos h1]
    · rw [if_neg h1, if_neg h1]
      by_cases h2 : ¬(proof.code_comm_kzg_sess = cc.code_comm_kzg_base + B)
      · rw [if_pos h2, if_pos h2]
      · rw [if_neg h2, if_neg h2]
        by_cases h3 : proof.domain_tag ≠ inst.domain_tag
        · rw [if_pos h3, if_pos h3]
        · rw [if_neg h3, if_neg h3]
          rw [if_neg (show ¬proof.input_sha ≠ inst.input_sha from fun hc => hc h)]

set_option maxHeartbeats 1600000 in
/-- Core honest-run lemma: for every valid trace (dense `pc`, allowed
opcodes, halt only on the last row, length at most `2^31`) and honestly
generated KZG parameters whose SRS covers the padded trace length and the
blinding polynomial, `prove_from_trace` on instance `instA` succeeds and
`verify_proof` accepts the produced proof under any instance `instB` sharing
`instA`'s domain tag (`verify_proof` never reads the instance's input hash). -/
theorem honest_proof_accepts
    (max_deg : ℕ) (s : Fr) (cc : CodeCommit) (instA instB : PublicInstance)
    (trc : List TraceRow) (uses_logic : Bool)
    (hvalid : validTraceB trc = true)
    (hT31 : trc.length ≤ 2 ^ 31)
    (hsrs1 : 2 ^ ceilLog2 trc.length ≤ max_deg + 1)
    (hsrs2 : 8 ≤ max_deg)
    (htag : instA.domain_tag = instB.domain_tag) :
    ∃ prf, prove_from_trace (mkKZGParams max_deg s) cc instA trc uses_logic 4 4 = some prf ∧
      prf.domain_tag = instA.domain_tag ∧ prf.input_sha = instA.input_sha ∧
      prf.trace_len = trc.length % 2 ^ 32 ∧
      verify_proof (mkKZGParams max_deg s) cc instB prf = VResult.accept := by
  have hTpos : 0 < trc.length := List.length_pos.mpr (validTraceB_ne_nil trc hvalid)
  set pp := mkKZGParams max_deg s with hppdef
  set T := trc.length with hTdef
  set n := ceilLog2 T with hndef
  set pow2 := 2 ^ n with hpow2def
  have hTpow : T ≤ pow2 := by rw [hpow2def, hndef]; exact ceilLog2_ge T
  have hn31 : n ≤ 31 := by rw [hndef]; exact ceilLog2_le_of_le_pow T 31 hT31
  have hpow2_31 : pow2 ≤ 2 ^ 31 := by
    rw [hpow2def]; exact Nat.pow_le_pow_right (by norm_num) hn31
  have hpow2_32 : pow2 < 2 ^ 32 := lt_of_le_of_lt hpow2_31 (by norm_num)
  have hT32 : T < 2 ^ 32 := Nat.lt_of_le_of_lt hTpow hpow2_32
  have hTmod : T % 2 ^ 32 = T := Nat.mod_eq_of_lt hT32
  have hpmod : pow2 % 2 ^ 32 = pow2 := Nat.mod_eq_of_lt hpow2_32
  have hpow2pos : 0 < pow2 := by omega
  set pad := List.replicate (pow2 - T) (0 : Fr) with hpaddef
  set colpc := List.map (fun r => fr_from_u64 r.pc) trc ++ pad with hcolpcdef
  set colop := List.map (fun r => r.opcode) trc ++ pad with hcolopdef
  set colz := List.map (fun r => r.z) trc ++ pad with hcolzdef
  set colh := List.map (fun r => r.is_halt) trc ++ pad with hcolhdef
  set colx := List.map (fun r => r.x) trc ++ pad with hcolxdef
  set coly := List.map (fun r => r.y) trc ++ pad with hcolydef
  have hlpc : colpc.length = pow2 := by
    rw [hcolpcdef, hpaddef]
    simp only [List.length_append, List.length_map, List.length_replicate]
    omega
  have hlop : colop.length = pow2 := by
    rw [hcolopdef, hpaddef]
    simp only [List.length_append, List.length_map, List.length_replicate]
    omega
  have hlz : colz.length = pow2 := by
    rw [hcolzdef, hpaddef]
    simp only [List.length_append, List.length_map, List.length_replicate]
    omega
  have hlh : colh.length = pow2 := by
    rw [hcolhdef, hpaddef]
    simp only [List.length_append, List.length_map, List.length_replicate]
    omega
  have hlx : colx.length = pow2 := by
    rw [hcolxdef, hpaddef]
    simp only [List.length_append, List.length_map, List.length_replicate]
    omega
  have hly : coly.length = pow2 := by
    rw [hcolydef, hpaddef]
    simp only [List.length_append, List.length_map, List.length_replicate]
    omega
  set pcP := interpolate_on_range0 colpc with hpcPdef
  set opP := interpolate_on_range0 colop with hopPdef
  set zP := interpolate_on_range0 colz with hzPdef
  set hhP := interpolate_on_range0 colh with hhPdef
  set xP := interpolate_on_range0 colx with hxPdef
  set yP := interpolate_on_range0 coly with hyPdef
  have hdpc : pcP.c.length ≤ max_deg + 1 := by
    rw [hpcPdef]
    refine le_trans (interpolate_length_le colpc) ?_
    rw [hlpc]; omega
  have hdop : opP.c.length ≤ max_deg + 1 := by
    rw [hopPdef]
    refine le_trans (interpolate_length_le colop) ?_
    rw [hlop]; omega
  have hdz : zP.c.length ≤ max_deg + 1 := by
    rw [hzPdef]
    refine le_trans (interpolate_length_le colz) ?_
    rw [hlz]; omega
  have hdh : hhP.c.length ≤ max_deg + 1 := by
    rw [hhPdef]
    refine le_trans (interpolate_length_le colh) ?_
    rw [hlh]; omega
  have hdx : xP.c.length ≤ max_deg + 1 := by
    rw [hxPdef]
    refine le_trans (interpolate_length_le colx) ?_
    rw [hlx]; omega
  have hdy : yP.c.length ≤ max_deg + 1 := by
    rw [hyPdef]
    refine le_trans (interpolate_length_le coly) ?_
    rw [hly]; omega
  set bpoly := blinding_poly_from_domain_tag instA.domain_tag 8 with hbpolydef
  have hdb : bpoly.c.length ≤ max_deg + 1 := by
    rw [hbpolydef]
    unfold blinding_poly_from_domain_tag poly_normalize
    simp only
    refine le_trans (stripTrailingZeros_length_le _) ?_
    simp only [List.length_map, List.length_range]
    omega
  set Cpc := evalPoly pcP.c s with hCpcv
  set Cop := evalPoly opP.c s with hCopv
  set Cz := evalPoly zP.c s with hCzv
  set Chh := evalPoly hhP.c s with hChv
  set Cx := evalPoly xP.c s with hCxv
  set Cy := evalPoly yP.c s with hCyv
  set Bv := evalPoly bpoly.c s with hBvv
  set Csess := cc.code_comm_kzg_base + Bv with hCsessv
  have hKpc : kzg_commit pp pcP = some Cpc := by
    rw [hppdef, hCpcv]; exact kzg_commit_powers max_deg s pcP hdpc
  have hKop : kzg_commit pp opP = some Cop := by
    rw [hppdef, hCopv]; exact kzg_commit_powers max_deg s opP hdop
  have hKz : kzg_commit pp zP = some Cz := by
    rw [hppdef, hCzv]; exact kzg_commit_powers max_deg s zP hdz
  have hKh : kzg_commit pp hhP = some Chh := by
    rw [hppdef, hChv]; exact kzg_commit_powers max_deg s hhP hdh
  have hKx : kzg_commit pp xP = some Cx := by
    rw [hppdef, hCxv]; exact kzg_commit_powers max_deg s xP hdx
  have hKy : kzg_commit pp yP = some Cy := by
    rw [hppdef, hCyv]; exact kzg_commit_powers max_deg s yP hdy
  have hKb : kzg_commit pp bpoly = some Bv := by
    rw [hppdef, hBvv]; exact kzg_commit_powers max_deg s bpoly hdb
  set tr1 := ((((((((((Transcript.mk []).absorb instA.domain_tag).absorb
    instA.input_sha).absorb cc.code_sha).absorb_g1 Csess).absorb_g1 Cpc).absorb_g1
    Cop).absorb_g1 Cz).absorb_g1 Cx).absorb_g1 Cy).absorb_g1 Chh with htr1def
  set ftab := transitionTable colpc colh T pow2 with hftabdef
  have hftablen : ftab.length = 2 ^ n := by
    rw [hftabdef]
    unfold transitionTable
    simp only [List.length_map, List.length_range]
  obtain ⟨scp, tr2, hscp, hclaim, hnvars, hscv⟩ := sumcheck_complete ftab n tr1 hftablen
  set seed := tr2.squeeze with hseeddef
  set idxs := derive_indices seed T 4 with hidxsdef
  have hidxmem : ∀ i ∈ idxs, i < T := by
    intro i hi
    rw [hidxsdef] at hi
    unfold derive_indices at hi
    have hb := derive_indices_go_bound T 4 seed 0 i hi
    omega
  have hcolop_at : ∀ i, i < T → colop.getD i 0 ∈ allowed_fr := by
    intro i hi
    rw [hcolopdef, getD_append_lt _ _ i (by simp only [List.length_map]; omega) 0,
      getD_map_lt _ _ i (by omega)]
    exact (validTraceB_row trc hvalid i (by omega)).2.1
  have hcolpc_at : ∀ i, i < T → colpc.getD i 0 = fr_from_u64 i := by
    intro i hi
    rw [hcolpcdef, getD_append_lt _ _ i (by simp only [List.length_map]; omega) 0,
      getD_map_lt _ _ i (by omega), (validTraceB_row trc hvalid i (by omega)).1]
  have hopsAll : ∀ idx ∈ idxs, ∃ o,
      (kzg_open pp opP (fr_from_u64 idx)).map (fun vw => KZGOpening.mk idx vw.1 vw.2) = some o ∧
      opRel pp Cop idx o := by
    intro idx hmem
    have hiT : idx < T := hidxmem idx hmem
    obtain ⟨w, ho, hv⟩ := kzg_open_spec max_deg s (fr_from_u64 idx) opP hdop
    rw [← hppdef] at ho hv
    refine ⟨KZGOpening.mk idx (evalPoly opP.c (fr_from_u64 idx)) w, by rw [ho]; rfl, rfl, ?_, ?_⟩
    · show kzg_verify pp Cop (fr_from_u64 idx) (evalPoly opP.c (fr_from_u64 idx)) w = true
      rw [hCopv]; exact hv
    · show allowed_fr.contains (evalPoly opP.c (fr_from_u64 idx)) = true
      rw [hopPdef, interpolate_eval colop idx (by rw [hlop]; omega) (by rw [hlop]; omega)]
      have hmem2 := hcolop_at idx hiT
      simpa using hmem2
  obtain ⟨ops, hops, hopsF⟩ := mapM_option_spec
    (fun idx => (kzg_open pp opP (fr_from_u64 idx)).map (fun vw => KZGOpening.mk idx vw.1 vw.2))
    (opRel pp Cop) idxs hopsAll
  have hopslen : idxs.length = ops.length := List.Forall₂.length_eq hopsF
  set rowseed := sha256 (seed ++ [82]) with hrowseeddef
  set rids := derive_indices rowseed (T - 1) 4 with hridsdef
  have hridmem : 2 ≤ T → ∀ i ∈ rids, i < T - 1 := by
    intro h2 i hi
    rw [hridsdef] at hi
    unfold derive_indices at hi
    have hb := derive_indices_go_bound (T - 1) 4 rowseed 0 i hi
    omega
  have hrowsAll : 2 ≤ T → ∀ i ∈ rids, ∃ ro,
      openRow pp pcP opP xP yP zP hhP i = some ro ∧
      rowRel pp Cpc Cop Cx Cy Cz Chh i ro := by
    intro h2 i hi
    have hiT : i < T - 1 := hridmem h2 i hi
    obtain ⟨ro, hro, hidx, hpci, hpcip, hopi, hxi, hyi, hzi, hhi, hv1, hv2, hv3, hv4, hv5, hv6, hv7⟩ :=
      openRow_spec max_deg s pcP opP xP yP zP hhP i hdpc hdop hdx hdy hdz hdh
    rw [← hppdef] at hro hv1 hv2 hv3 hv4 hv5 hv6 hv7
    refine ⟨ro, hro, hidx, ?_, ?_, ?_, ?_, ?_, ?_, ?_, ?_⟩
    · rw [hidx, hCpcv]; exact hv1
    · rw [hidx, hCpcv]; exact hv2
    · rw [hidx, hCopv]; exact hv3
    · rw [hidx, hCxv]; exact hv4
    · rw [hidx, hCyv]; exact hv5
    · rw [hidx, hCzv]; exact hv6
    · rw [hidx, hChv]; exact hv7
    · refine row_semantic_check_none ro ?_ ?_
      · rw [hpcip, hpci, hpcPdef,
          interpolate_eval colpc (i + 1) (by rw [hlpc]; omega) (by rw [hlpc]; omega),
          interpolate_eval colpc i (by rw [hlpc]; omega) (by rw [hlpc]; omega),
          hcolpc_at (i + 1) (by omega), hcolpc_at i (by omega)]
        exact fr_from_u64_succ i (by omega)
      · rw [hopi, hopPdef,
          interpolate_eval colop i (by rw [hlop]; omega) (by rw [hlop]; omega)]
        exact fr_to_u64_allowed_zero _ (hcolop_at i (by omega))
  have hrowpack : ∃ rows, (if 2 ≤ T then List.mapM (openRow pp pcP opP xP yP zP hhP) rids
        else pure []) = some rows ∧
      (2 ≤ T → List.Forall₂ (rowRel pp Cpc Cop Cx Cy Cz Chh) rids rows) ∧
      (¬2 ≤ T → rows = []) := by
    by_cases h2 : 2 ≤ T
    · obtain ⟨rows, hrw, hF⟩ := mapM_option_spec (openRow pp pcP opP xP yP zP hhP)
        (rowRel pp Cpc Cop Cx Cy Cz Chh) rids (hrowsAll h2)
      exact ⟨rows, by rw [if_pos h2]; exact hrw, fun _ => hF, fun hc => absurd h2 hc⟩
    · exact ⟨[], by rw [if_neg h2]; rfl, fun hc => absurd hc h2, fun _ => rfl⟩
  obtain ⟨rows, hrowseq, hrowsF, hrowsnil⟩ := hrowpack
  set PRF : Proof := Proof.mk cc.code_sha instA.domain_tag instA.input_sha Csess
    Cpc Cop Cz Cx Cy Chh 0 0 0 0 (pow2 % 2 ^ 32) (T % 2 ^ 32) scp ops [] rows
    ((trc.getLastD default).z_raw % 2 ^ 64).toNat with hPRFdef
  have hprove : prove_from_trace pp cc instA trc uses_logic 4 4 = some PRF := by
    rw [hPRFdef]
    unfold prove_from_trace
    simp only [traceColumns]
    simp only [← hTdef, ← hndef, ← hpow2def, ← hpaddef, ← hcolpcdef, ← hcolopdef, ← hcolzdef,
      ← hcolhdef, ← hcolxdef, ← hcolydef]
    simp only [← hpcPdef, ← hopPdef, ← hzPdef, ← hhPdef, ← hxPdef, ← hyPdef, ← hftabdef,
      ← hbpolydef]
    simp only [hKpc, hKop, hKz, hKx, hKy, hKh, hKb, option_bind_some]
    simp only [← hCsessv, ← htr1def]
    simp only [hscp, option_bind_some]
    simp only [← hseeddef, ← hidxsdef]
    simp only [hops, option_bind_some]
    simp only [← hrowseeddef, ← hridsdef]
    rw [hrowseq]
    simp only [option_bind_some, option_pure_eq_some]
  have hc1 : PRF.code_sha = cc.code_sha := by rw [hPRFdef]
  have hc2 : PRF.code_comm_kzg_sess = Csess := by rw [hPRFdef]
  have hc3 : PRF.domain_tag = instA.domain_tag := by rw [hPRFdef]
  have hc4 : PRF.input_sha = instA.input_sha := by rw [hPRFdef]
  have hc5 : PRF.trace_pow2 = pow2 % 2 ^ 32 := by rw [hPRFdef]
  have hc6 : PRF.trace_len = T % 2 ^ 32 := by rw [hPRFdef]
  have hc7 : PRF.lut_openings = ([] : List LUTOpening) := by rw [hPRFdef]
  have hc8 : PRF.sc = scp := by rw [hPRFdef]
  have hc9 : PRF.op_openings = ops := by rw [hPRFdef]
  have hc10 : PRF.row_openings = rows := by rw [hPRFdef]
  have hc11 : PRF.op_comm = Cop := by rw [hPRFdef]
  have hheader2 : headerTranscript PRF = tr1 := by
    rw [hPRFdef, htr1def]
    unfold headerTranscript lutPresent
    simp
  have hc3b : PRF.domain_tag = instB.domain_tag := by rw [hc3, htag]
  have hver : verify_proof pp cc instB PRF = VResult.accept := by
    have hKb2 : kzg_commit pp (blinding_poly_from_domain_tag instB.domain_tag 8) = some Bv := by
      rw [← htag, ← hbpolydef]; exact hKb
    have hTne : ¬(T = 0) := by omega
    have hpne : ¬(pow2 = 0) := by omega
    have hnlt : ¬(pow2 < T) := by omega
    have hsv : sumcheck_verify PRF.sc (headerTranscript PRF) PRF.sc.claimed_sum = (true, tr2) := by
      rw [hc8, hheader2]; exact hscv
    unfold verify_proof
    rw [hKb2]
    simp only [hc1, hc2, hc3b, hc5, hc6, hc7, hTmod, hpmod, ← hCsessv, hsv]
    simp [hTne, hpne, hnlt]
    rw [if_pos htag]
    rw [← hseeddef]
    unfold verify_tail
    simp only [hc6, hTmod, ← hidxsdef, hc9, hc11]
    rw [if_neg (show ¬(idxs.length ≠ ops.length) from fun hc => hc hopslen)]
    simp only [check_op_openings_none pp Cop idxs ops hopsF]
    by_cases h2 : 2 ≤ T
    · rw [if_neg (show ¬(T < 2) by omega)]
      simp only [← hrowseeddef, ← hridsdef, hc10]
      have hlen3 : rids.length = rows.length := List.Forall₂.length_eq (hrowsF h2)
      rw [if_neg (show ¬(rows.length ≠ rids.length) from fun hc => hc hlen3.symm)]
      simp only [check_row_openings_none pp PRF rids rows (hrowsF h2)]
    · rw [if_pos (show T < 2 by omega)]
  exact ⟨PRF, hprove, hc3, hc4, hc6, hver⟩

/-- C1, end-to-end completeness: for every valid trace (dense `pc`, allowed
opcodes, halt only on the last row, length at most `2^31`) and honestly
generated KZG parameters whose SRS covers the padded trace length and the
blinding polynomial (the sources always size the SRS so), `prove_from_trace`
succeeds and both `verify_proof` (fidesinnova.cpp) and jolt's `verify` accept
the produced proof for the same code commitment and public instance. -/
theorem C1_end_to_end_completeness
    (max_deg : ℕ) (s : Fr) (cc : CodeCommit) (inst : PublicInstance)
    (trc : List TraceRow) (uses_logic : Bool)
    (hvalid : validTraceB trc = true)
    (hT31 : trc.length ≤ 2 ^ 31)
    (hsrs1 : 2 ^ ceilLog2 trc.length ≤ max_deg + 1)
    (hsrs2 : 8 ≤ max_deg) :
    ∃ prf, prove_from_trace (mkKZGParams max_deg s) cc inst trc uses_logic 4 4 = some prf ∧
      verify_proof (mkKZGParams max_deg s) cc inst prf = VResult.accept ∧
      verify_jolt (mkKZGParams max_deg s) cc inst prf 4 4 = VResult.accept := by
  obtain ⟨prf, hp, hdom, hinp, hlen, hv⟩ := honest_proof_accepts max_deg s cc inst inst trc
    uses_logic hvalid hT31 hsrs1 hsrs2 rfl
  exact ⟨prf, hp, hv, by rw [verify_jolt_eq_verify_proof (mkKZGParams max_deg s) cc inst prf hinp, hv]⟩

/-- Concrete witness input for the completeness theorem: the one-row trace of
a program that halts immediately. -/
def haltRow : TraceRow := ⟨0, fr_from_u64 OP_HALT, 0, 0, 0, 1, 0, 0, 0⟩

theorem C1_end_to_end_completeness_witness :
    validTraceB [haltRow] = true ∧ [haltRow].length ≤ 2 ^ 31 ∧
    2 ^ ceilLog2 [haltRow].length ≤ 8 + 1 ∧
    ∃ prf, prove_from_trace (mkKZGParams 8 7) ⟨[1], 0, 1, "gdb"⟩ ⟨[2], [3]⟩
        [haltRow] false 4 4 = some prf ∧
      verify_proof (mkKZGParams 8 7) ⟨[1], 0, 1, "gdb"⟩ ⟨[2], [3]⟩ prf = VResult.accept ∧
      verify_jolt (mkKZGParams 8 7) ⟨[1], 0, 1, "gdb"⟩ ⟨[2], [3]⟩ prf 4 4 = VResult.accept :=
  ⟨by decide, by decide, by decide,
    C1_end_to_end_completeness 8 7 ⟨[1], 0, 1, "gdb"⟩ ⟨[2], [3]⟩ [haltRow] false
      (by decide) (by decide) (by decide) (by decide)⟩

/-- C2, KZG completeness.  The fidesinnova.cpp `kzg_*` family satisfies the
claim: commitment, opening and the pairing check all succeed for any
polynomial fitting the SRS, at every point.  The `kzg_mcl.hpp` `KZG::` API
does not: its `msm_g1` throws unless the scalar vector has exactly the SRS
length, so `KZG::commit` throws for every polynomial of degree `< N` and
`KZG::open` throws for every polynomial whose quotient is shorter than the
SRS — contradicting the header's own documented usage (`commit`/`open` on
`coeffs` with `coeffs.size() ≤ srs.size()`). -/
theorem C2_kzg_completeness :
    (∀ (max_deg : ℕ) (s z : Fr) (f : PolyF), f.c.length ≤ max_deg + 1 →
      ∃ y w, kzg_open (mkKZGParams max_deg s) f z = some (y, w) ∧
        kzg_commit (mkKZGParams max_deg s) f = some (evalPoly f.c s) ∧
        kzg_verify (mkKZGParams max_deg s) (evalPoly f.c s) z y w = true) ∧
    KZG.commit (KZG.trustedSetup 2 7) [5] = none ∧
    KZG.openPoly (KZG.trustedSetup 2 7) [5, 3] 4 = none := by
  refine ⟨fun max_deg s z f hlen => ?_, by decide, by decide⟩
  obtain ⟨w, ho, hv⟩ := kzg_open_spec max_deg s z f hlen
  exact ⟨evalPoly f.c z, w, ho, kzg_commit_powers max_deg s f hlen, hv⟩

theorem C2_kzg_completeness_witness :
    (∃ y w, kzg_open (mkKZGParams 1 7) (PolyF.mk [2, 4]) 3 = some (y, w) ∧
      kzg_commit (mkKZGParams 1 7) (PolyF.mk [2, 4]) = some (evalPoly (PolyF.mk [2, 4]).c 7) ∧
      kzg_verify (mkKZGParams 1 7) (evalPoly (PolyF.mk [2, 4]).c 7) 3 y w = true) ∧
    KZG.commit (KZG.trustedSetup 2 7) [5] = none :=
  ⟨C2_kzg_completeness.1 1 7 3 (PolyF.mk [2, 4]) (by decide), C2_kzg_completeness.2.1⟩

/-- C3, sum-check completeness: tables of exact power-of-two length always
sum-check-verify against the claimed sum `Σ t[i]` when prover and verifier
transcripts start with the same absorbed bytes. -/
theorem C3_sumcheck_completeness (t : List Fr) (n : ℕ) (trP trV : Transcript)
    (hlen : t.length = 2 ^ n) (htr : trP.st = trV.st) :
    ∃ pf trOut, sumcheck_prove t trP = some (pf, trOut) ∧
      (sumcheck_verify pf trV (sumList t)).1 = true := by
  have heq : trP = trV := by cases trP; cases trV; simpa using htr
  subst heq
  obtain ⟨pf, trOut, hp, hclaim, hn, hv⟩ := sumcheck_complete t n trP hlen
  refine ⟨pf, trOut, hp, ?_⟩
  rw [← hclaim, hv]

theorem C3_sumcheck_completeness_witness :
    ∃ pf trOut, sumcheck_prove [5, 6] (Transcript.mk [1]) = some (pf, trOut) ∧
      (sumcheck_verify pf (Transcript.mk [1]) (sumList [5, 6])).1 = true :=
  C3_sumcheck_completeness [5, 6] 1 (Transcript.mk [1]) (Transcript.mk [1]) (by decide) rfl

theorem sumList_eq_zero (l : List Fr) (h : ∀ x ∈ l, x = 0) : sumList l = 0 := by
  induction l with
  | nil => rfl
  | cons c t ih =>
    rw [sumList_cons, h c (by simp), ih (fun x hx => h x (by simp [hx]))]
    ring

/-- C4, transition table, the direction that holds: the sum over the table is
zero whenever `pc` is a strict successor chain except on halt-tagged rows
(every entry of the table is then zero).  The converse direction of the
claimed equivalence is refuted by `C4_cancellation_counterexample`. -/
theorem C4_transition_sum_of_chain (col_pc col_h : List Fr) (T pow2 : ℕ)
    (hch : ∀ i, i + 1 < T →
      col_h.getD i 0 = 1 ∨ col_pc.getD (i + 1) 0 = col_pc.getD i 0 + 1) :
    sumList (transitionTable col_pc col_h T pow2) = 0 := by
  apply sumList_eq_zero
  intro x hx
  unfold transitionTable at hx
  rw [List.mem_map] at hx
  obtain ⟨i, hi, rfl⟩ := hx
  by_cases hlt : i + 1 < T
  · rw [if_pos hlt]
    rcases hch i hlt with h1 | h2
    · rw [h1]; ring
    · rw [h2]; ring
  · rw [if_neg hlt]

/-- C4's counterexample to the claimed "if and only if": for `pc = [0,0,2]`,
`h = [0,0,0]`, `T = 3` the table's nonzero entries `-1` and `+1` cancel, so
the sum is zero although `pc[1] ≠ pc[0] + 1` on a row with `h[0] = 0`. -/
theorem C4_cancellation_counterexample :
    sumList (transitionTable [0, 0, 2] [0, 0, 0] 3 4) = 0 ∧
    ([0, 0, 0] : List Fr).getD 0 0 = 0 ∧
    ([0, 0, 2] : List Fr).getD 1 0 ≠ ([0, 0, 2] : List Fr).getD 0 0 + 1 :=
  ⟨by decide, by decide, by decide⟩

theorem C4_transition_sum_of_chain_witness :
    (∀ i, i + 1 < 2 → ([0, 0] : List Fr).getD i 0 = 1 ∨
      ([0, 1] : List Fr).getD (i + 1) 0 = ([0, 1] : List Fr).getD i 0 + 1) ∧
    sumList (transitionTable [0, 1] [0, 0] 2 2) = 0 := by
  have hh : ∀ i, i + 1 < 2 → ([0, 0] : List Fr).getD i 0 = 1 ∨
      ([0, 1] : List Fr).getD (i + 1) 0 = ([0, 1] : List Fr).getD i 0 + 1 := by
    intro i hi
    have h0 : i = 0 := by omega
    subst h0
    right
    decide
  exact ⟨hh, C4_transition_sum_of_chain [0, 1] [0, 0] 2 2 hh⟩

/-- C6, ADD semantics: the claimed per-opcode check is dead code.  `fr_to_u64`
reads the top eight bytes of the little-endian serialization, so every small
opcode tag — including the ADD tag — folds to `0 = OP_PUSH` and the switch
always takes the PUSH branch: a row opening whose operands violate
`z = x + y` (here `13 ≠ 5 + 7`) still passes `row_semantic_check`. -/
theorem C6_add_semantics_unchecked :
    row_semantic_check (RowOpening.mk 0 (fr_from_u64 0) (fr_from_u64 1) 0 0
        (fr_from_u64 OP_ADD) 0 (fr_from_u64 5) 0 (fr_from_u64 7) 0 (fr_from_u64 13) 0 0 0)
      = none ∧
    fr_to_u64 (fr_from_u64 OP_ADD) = OP_PUSH ∧
    fr_from_u64 13 ≠ fr_from_u64 5 + fr_from_u64 7 :=
  ⟨by decide, by decide, by decide⟩

/-- C9, synthetic division and Horner evaluation agree: quotient length,
remainder = evaluation, the division identity at every point, and the Horner
recurrence on a nonempty coefficient vector. -/
theorem C9_divXminusZ_horner (a : List Fr) (z : Fr) (ha : a ≠ []) :
    ((divXminusZ a z).1).length = a.length - 1 ∧
    (divXminusZ a z).2 = evalPoly a z ∧
    (∀ w, evalPoly a w = evalPoly (divXminusZ a z).1 w * (w - z) + (divXminusZ a z).2) ∧
    evalPoly a z = a.headD 0 + z * evalPoly a.tail z := by
  refine ⟨divXminusZ_length a z ha, divXminusZ_snd a z,
    fun w => divXminusZ_identity a z w, ?_⟩
  obtain ⟨c, t, rfl⟩ := List.exists_cons_of_ne_nil ha
  rw [evalPoly_cons]
  simp only [List.headD_cons, List.tail_cons]
  ring

theorem C9_divXminusZ_horner_witness :
    ((divXminusZ [3, 4] 2).1).length = ([3, 4] : List Fr).length - 1 ∧
    (divXminusZ [3, 4] 2).2 = evalPoly [3, 4] 2 ∧
    (∀ w, evalPoly [3, 4] w = evalPoly (divXminusZ [3, 4] 2).1 w * (w - 2)
      + (divXminusZ [3, 4] 2).2) ∧
    evalPoly [3, 4] 2 = ([3, 4] : List Fr).headD 0 + 2 * evalPoly ([3, 4] : List Fr).tail 2 :=
  C9_divXminusZ_horner [3, 4] 2 (by decide)

/-- C10, totality of index derivation: `derive_indices` always returns
exactly `k` indices, each below `max(domain, 1)`; with `domain = 0` the
modulus falls back to `1` (no modulo-by-zero) and every index is `0`. -/
theorem C10_derive_indices_total (seed : List ℕ) (domain k : ℕ) :
    (derive_indices seed domain k).length = k ∧
    (∀ i ∈ derive_indices seed domain k, i < max domain 1) ∧
    (domain = 0 → ∀ i ∈ derive_indices seed domain k, i = 0) := by
  refine ⟨derive_indices_go_length domain k seed 0, ?_, ?_⟩
  · intro i hi
    exact derive_indices_go_bound domain k seed 0 i hi
  · intro h0 i hi
    have hb := derive_indices_go_bound domain k seed 0 i hi
    subst h0
    simpa using hb

theorem C10_derive_indices_total_witness :
    (derive_indices [7] 0 2).length = 2 ∧
    (∀ i ∈ derive_indices [7] 0 2, i < max 0 1) ∧
    (0 = 0 → ∀ i ∈ derive_indices [7] 0 2, i = 0) :=
  C10_derive_indices_total [7] 0 2

theorem blinding_commit_some (pp : KZGParams) (tag : List ℕ) (h : 8 < pp.srs_g1.length) :
    ∃ B, kzg_commit pp (blinding_poly_from_domain_tag tag 8) = some B := by
  have hblen : (blinding_poly_from_domain_tag tag 8).c.length ≤ 9 := by
    unfold blinding_poly_from_domain_tag poly_normalize
    simp only
    refine le_trans (stripTrailingZeros_length_le _) ?_
    simp
  unfold kzg_commit
  rw [if_neg (by omega)]
  exact ⟨_, rfl⟩

/-- C5, binding rejection.  The true parts: a domain-tag mismatch always
makes `verify_proof` reject with one of the three binding reasons, and an
input-hash mismatch always makes jolt's `verify` reject with a binding
reason.  The input-hash half of the claim is false for fidesinnova's
`verify_proof`, which never compares `input_sha` with the instance: see
`C5_input_binding_counterexample`. -/
theorem C5_binding_rejection :
    (∀ (pp : KZGParams) (cc : CodeCommit) (inst : PublicInstance) (proof : Proof),
      8 < pp.srs_g1.length → proof.domain_tag ≠ inst.domain_tag →
      ∃ r, verify_proof pp cc inst proof = VResult.reject r ∧
        (r = "code sha mismatch" ∨ r = "code KZG (session) mismatch" ∨
          r = "domain tag mismatch")) ∧
    (∀ (pp : KZGParams) (cc : CodeCommit) (inst : PublicInstance) (proof : Proof),
      8 < pp.srs_g1.length → proof.input_sha ≠ inst.input_sha →
      ∃ r, verify_jolt pp cc inst proof 4 4 = VResult.reject r ∧
        (r = "code sha mismatch" ∨ r = "code KZG (session) mismatch" ∨
          r = "domain tag mismatch" ∨ r = "input hash mismatch")) := by
  refine ⟨?_, ?_⟩
  · intro pp cc inst proof hsrs hdom
    obtain ⟨B, hB⟩ := blinding_commit_some pp inst.domain_tag hsrs
    unfold verify_proof
    rw [hB]
    simp only
    by_cases h1 : proof.code_sha ≠ cc.code_sha
    · exact ⟨"code sha mismatch", by rw [if_pos h1], Or.inl rfl⟩
    · rw [if_neg h1]
      by_cases h2 : ¬(proof.code_comm_kzg_sess = cc.code_comm_kzg_base + B)
      · exact ⟨"code KZG (session) mismatch", by rw [if_pos h2], Or.inr (Or.inl rfl)⟩
      · rw [if_neg h2]
        exact ⟨"domain tag mismatch", by rw [if_pos hdom], Or.inr (Or.inr rfl)⟩
  · intro pp cc inst proof hsrs hinp
    obtain ⟨B, hB⟩ := blinding_commit_some pp inst.domain_tag hsrs
    unfold verify_jolt
    rw [hB]
    simp only
    by_cases h1 : proof.code_sha ≠ cc.code_sha
    · exact ⟨"code sha mismatch", by rw [if_pos h1], Or.inl rfl⟩
    · rw [if_neg h1]
      by_cases h2 : ¬(proof.code_comm_kzg_sess = cc.code_comm_kzg_base + B)
      · exact ⟨"code KZG (session) mismatch", by rw [if_pos h2], Or.inr (Or.inl rfl)⟩
      · rw [if_neg h2]
        by_cases h3 : proof.domain_tag ≠ inst.domain_tag
        · exact ⟨"domain tag mismatch", by rw [if_pos h3], Or.inr (Or.inr (Or.inl rfl))⟩
        · rw [if_neg h3]
          exact ⟨"input hash mismatch", by rw [if_pos hinp], Or.inr (Or.inr (Or.inr rfl))⟩

/-- C5's counterexample to the input-hash half of the claim for
fidesinnova's `verify_proof`: the honest proof of the one-row halting trace,
issued under input hash `[3]`, carries `input_sha = [3]` yet is accepted by
`verify_proof` under an instance whose input hash is `[4]`. -/
theorem C5_input_binding_counterexample :
    ∃ prf, prove_from_trace (mkKZGParams 8 7) (CodeCommit.mk [1] 0 1 "gdb") ⟨[2], [3]⟩
        [haltRow] false 4 4 = some prf ∧
      prf.input_sha ≠ (PublicInstance.mk [2] [4]).input_sha ∧
      verify_proof (mkKZGParams 8 7) (CodeCommit.mk [1] 0 1 "gdb") ⟨[2], [4]⟩ prf
        = VResult.accept := by
  obtain ⟨prf, hp, hdom, hinp, hlen, hv⟩ := honest_proof_accepts 8 7
    (CodeCommit.mk [1] 0 1 "gdb") ⟨[2], [3]⟩ ⟨[2], [4]⟩ [haltRow] false
    (by decide) (by decide) (by decide) (by decide) rfl
  refine ⟨prf, hp, ?_, hv⟩
  rw [hinp]
  decide

/-- A proof object whose header fields match nothing: used to exercise the
binding rejections. -/
def mismatchProof : Proof :=
  Proof.mk [1] [9] [8] 0 0 0 0 0 0 0 0 0 0 0 1 1 (SumcheckProof.mk 0 0 []) [] [] [] 0

theorem C5_binding_rejection_witness :
    (∃ r, verify_proof (mkKZGParams 8 7) (CodeCommit.mk [1] 0 1 "gdb")
        (PublicInstance.mk [2] [3]) mismatchProof = VResult.reject r ∧
      (r = "code sha mismatch" ∨ r = "code KZG (session) mismatch" ∨
        r = "domain tag mismatch")) ∧
    (∃ r, verify_jolt (mkKZGParams 8 7) (CodeCommit.mk [1] 0 1 "gdb")
        (PublicInstance.mk [2] [3]) mismatchProof 4 4 = VResult.reject r ∧
      (r = "code sha mismatch" ∨ r = "code KZG (session) mismatch" ∨
        r = "domain tag mismatch" ∨ r = "input hash mismatch")) :=
  ⟨C5_binding_rejection.1 _ _ _ _ (by decide) (by decide),
   C5_binding_rejection.2 _ _ _ _ (by decide) (by decide)⟩

/-- Replace only the `trace_pow2` field of a proof. -/
def setPow2 (p : Proof) (v : ℕ) : Proof :=
  Proof.mk p.code_sha p.domain_tag p.input_sha p.code_comm_kzg_sess p.pc_comm p.op_comm
    p.z_comm p.x_comm p.y_comm p.h_comm p.lut_x_comm p.lut_y_comm p.lut_z_comm p.lut_op_comm
    v p.trace_len p.sc p.op_openings p.lut_openings p.row_openings p.final_output

theorem check_row_openings_setPow2 (pp : KZGParams) (proof : Proof) (v : ℕ) :
    ∀ (is : List ℕ) (ros : List RowOpening),
      check_row_openings pp (setPow2 proof v) is ros = check_row_openings pp proof is ros := by
  intro is
  induction is with
  | nil => intro ros; cases ros <;> rfl
  | cons i t ih =>
    intro ros
    cases ros with
    | nil => rfl
    | cons ro ros2 =>
      unfold check_row_openings
      simp only [show (setPow2 proof v).pc_comm = proof.pc_comm from rfl,
        show (setPow2 proof v).op_comm = proof.op_comm from rfl,
        show (setPow2 proof v).x_comm = proof.x_comm from rfl,
        show (setPow2 proof v).y_comm = proof.y_comm from rfl,
        show (setPow2 proof v).z_comm = proof.z_comm from rfl,
        show (setPow2 proof v).h_comm = proof.h_comm from rfl, ih]

theorem verify_tail_setPow2 (pp : KZGParams) (proof : Proof) (v : ℕ) (seed : List ℕ)
    (k1 k2 : ℕ) :
    verify_tail pp (setPow2 proof v) seed k1 k2 = verify_tail pp proof seed k1 k2 := by
  unfold verify_tail
  simp only [show (setPow2 proof v).trace_len = proof.trace_len from rfl,
    show (setPow2 proof v).op_comm = proof.op_comm from rfl,
    show (setPow2 proof v).op_openings = proof.op_openings from rfl,
    show (setPow2 proof v).row_openings = proof.row_openings from rfl,
    check_row_openings_setPow2]

/-- `verify_proof` never reads `trace_pow2` beyond the `pow2 < len` size
comparison: overwriting it in an accepted proof with any value that keeps the
size comparison true leaves the verdict `accept`. -/
theorem verify_proof_setPow2_accept (pp : KZGParams) (cc : CodeCommit)
    (inst : PublicInstance) (proof : Proof) (v : ℕ)
    (hacc : verify_proof pp cc inst proof = VResult.accept)
    (hv0 : ¬v = 0) (hvlen : ¬v < proof.trace_len) :
    verify_proof pp cc inst (setPow2 proof v) = VResult.accept := by
  unfold verify_proof at hacc ⊢
  cases hK : kzg_commit pp (blinding_poly_from_domain_tag inst.domain_tag 8) with
  | none => rw [hK] at hacc; simp at hacc
  | some B =>
    rw [hK] at hacc
    simp only at hacc ⊢
    simp only [show (setPow2 proof v).code_sha = proof.code_sha from rfl,
      show (setPow2 proof v).code_comm_kzg_sess = proof.code_comm_kzg_sess from rfl,
      show (setPow2 proof v).domain_tag = proof.domain_tag from rfl,
      show (setPow2 proof v).trace_len = proof.trace_len from rfl,
      show (setPow2 proof v).trace_pow2 = v from rfl,
      show (setPow2 proof v).lut_openings = proof.lut_openings from rfl,
      show (setPow2 proof v).sc = proof.sc from rfl,
      show lutPresent (setPow2 proof v) = lutPresent proof from rfl,
      show headerTranscript (setPow2 proof v) = headerTranscript proof from rfl]
    by_cases h1 : proof.code_sha ≠ cc.code_sha
    · rw [if_pos h1] at hacc; simp at hacc
    · rw [if_neg h1] at hacc ⊢
      by_cases h2 : ¬(proof.code_comm_kzg_sess = cc.code_comm_kzg_base + B)
      · rw [if_pos h2] at hacc; simp at hacc
      · rw [if_neg h2] at hacc ⊢
        by_cases h3 : proof.domain_tag ≠ inst.domain_tag
        · rw [if_pos h3] at hacc; simp at hacc
        · rw [if_neg h3] at hacc ⊢
          by_cases h4 : proof.trace_len = 0 ∨ proof.trace_pow2 = 0 ∨
            proof.trace_pow2 < proof.trace_len
          · rw [if_pos h4] at hacc; simp at hacc
          · rw [if_neg h4] at hacc
            rw [if_neg (show ¬(proof.trace_len = 0 ∨ v = 0 ∨ v < proof.trace_len) by
              push_neg at h4 ⊢
              exact ⟨h4.1, hv0, by omega⟩)]
            by_cases h5 : ¬(lutPresent proof = true) ∧ proof.lut_openings ≠ []
            · rw [if_pos h5] at hacc; simp at hacc
            · rw [if_neg h5] at hacc ⊢
              by_cases h6 : ¬((sumcheck_verify proof.sc (headerTranscript proof)
                  proof.sc.claimed_sum).1 = true)
              · rw [if_pos h6] at hacc; simp at hacc
              · rw [if_neg h6] at hacc ⊢
                rw [verify_tail_setPow2]
                exact hacc

/-- C7, sizing rejection.  The true parts: `trace_len = 0`, `trace_pow2 = 0`
or `trace_pow2 < trace_len` each force a rejection in both verifiers.  The
false part: `trace_pow2` is never tested for being a power of two — an honest
accepted proof with its `trace_pow2` overwritten by `3` (not a power of two)
is still accepted. -/
theorem C7_sizing_rejection :
    (∀ (pp : KZGParams) (cc : CodeCommit) (inst : PublicInstance) (proof : Proof),
      8 < pp.srs_g1.length →
      (proof.trace_len = 0 ∨ proof.trace_pow2 = 0 ∨ proof.trace_pow2 < proof.trace_len) →
      ∃ r, verify_proof pp cc inst proof = VResult.reject r) ∧
    (∀ (pp : KZGParams) (cc : CodeCommit) (inst : PublicInstance) (proof : Proof),
      8 < pp.srs_g1.length →
      (proof.trace_len = 0 ∨ proof.trace_pow2 = 0 ∨ proof.trace_pow2 < proof.trace_len) →
      ∃ r, verify_jolt pp cc inst proof 4 4 = VResult.reject r) := by
  refine ⟨?_, ?_⟩
  · intro pp cc inst proof hsrs hsz
    obtain ⟨B, hB⟩ := blinding_commit_some pp inst.domain_tag hsrs
    unfold verify_proof
    rw [hB]
    simp only
    by_cases h1 : proof.code_sha ≠ cc.code_sha
    · exact ⟨_, by rw [if_pos h1]⟩
    · rw [if_neg h1]
      by_cases h2 : ¬(proof.code_comm_kzg_sess = cc.code_comm_kzg_base + B)
      · exact ⟨_, by rw [if_pos h2]⟩
      · rw [if_neg h2]
        by_cases h3 : proof.domain_tag ≠ inst.domain_tag
        · exact ⟨_, by rw [if_pos h3]⟩
        · rw [if_neg h3]
          exact ⟨"invalid trace sizes", by rw [if_pos hsz]⟩
  · intro pp cc inst proof hsrs hsz
    obtain ⟨B, hB⟩ := blinding_commit_some pp inst.domain_tag hsrs
    unfold verify_jolt
    rw [hB]
    simp only
    by_cases h1 : proof.code_sha ≠ cc.code_sha
    · exact ⟨_, by rw [if_pos h1]⟩
    · rw [if_neg h1]
      by_cases h2 : ¬(proof.code_comm_kzg_sess = cc.code_comm_kzg_base + B)
      · exact ⟨_, by rw [if_pos h2]⟩
      · rw [if_neg h2]
        by_cases h3 : proof.domain_tag ≠ inst.domain_tag
        · exact ⟨_, by rw [if_pos h3]⟩
        · rw [if_neg h3]
          by_cases h3b : proof.input_sha ≠ inst.input_sha
          · exact ⟨_, by rw [if_pos h3b]⟩
          · rw [if_neg h3b]
            exact ⟨"invalid trace sizes", by rw [if_pos hsz]⟩

/-- C7's counterexample to the "power of two" half of the claim: the honest
proof of the one-row halting trace with its `trace_pow2` field overwritten by
`3` — not a power of two — is still accepted by `verify_proof`. -/
theorem C7_power_of_two_counterexample :
    ∃ prf, prove_from_trace (mkKZGParams 8 7) (CodeCommit.mk [1] 0 1 "gdb") ⟨[2], [3]⟩
        [haltRow] false 4 4 = some prf ∧
      (setPow2 prf 3).trace_pow2 = 3 ∧ (∀ k : ℕ, (3 : ℕ) ≠ 2 ^ k) ∧
      verify_proof (mkKZGParams 8 7) (CodeCommit.mk [1] 0 1 "gdb") ⟨[2], [3]⟩ (setPow2 prf 3)
        = VResult.accept := by
  obtain ⟨prf, hp, hdom, hinp, hlen, hv⟩ := honest_proof_accepts 8 7
    (CodeCommit.mk [1] 0 1 "gdb") ⟨[2], [3]⟩ ⟨[2], [3]⟩ [haltRow] false
    (by decide) (by decide) (by decide) (by decide) rfl
  refine ⟨prf, hp, rfl, ?_, ?_⟩
  · intro k
    cases k with
    | zero => decide
    | succ m =>
      cases m with
      | zero => decide
      | succ l =>
        have h4 : 4 ≤ 2 ^ (l + 1 + 1) := by
          have h := Nat.pow_le_pow_right (show 0 < 2 by norm_num)
            (show 2 ≤ l + 1 + 1 by omega)
          simpa using h
        omega
  · refine verify_proof_setPow2_accept (mkKZGParams 8 7) (CodeCommit.mk [1] 0 1 "gdb")
      ⟨[2], [3]⟩ prf 3 hv (by omega) ?_
    rw [hlen]
    decide

/-- A proof object with `trace_len = trace_pow2 = 0`: exercises the sizing
rejection. -/
def zeroSizeProof : Proof :=
  Proof.mk [1] [2] [3] 0 0 0 0 0 0 0 0 0 0 0 0 0 (SumcheckProof.mk 0 0 []) [] [] [] 0

theorem C7_sizing_rejection_witness :
    (∃ r, verify_proof (mkKZGParams 8 7) (CodeCommit.mk [1] 0 1 "gdb")
      (PublicInstance.mk [2] [3]) zeroSizeProof = VResult.reject r) ∧
    (∃ r, verify_jolt (mkKZGParams 8 7) (CodeCommit.mk [1] 0 1 "gdb")
      (PublicInstance.mk [2] [3]) zeroSizeProof 4 4 = VResult.reject r) :=
  ⟨C7_sizing_rejection.1 _ _ _ _ (by decide) (by decide),
   C7_sizing_rejection.2 _ _ _ _ (by decide) (by decide)⟩

theorem row_semantic_check_reason (ro : RowOpening) (r : String)
    (h : row_semantic_check ro = some r) : r ≠ "sumcheck failed" := by
  unfold row_semantic_check at h
  simp only at h
  split_ifs at h <;> first
    | (subst h; decide)
    | (injection h with h2; subst h2; decide)
    | simp at h

theorem check_op_openings_reason (pp : KZGParams) (C : Fr) :
    ∀ (idxs : List ℕ) (os : List KZGOpening) (r : String),
      check_op_openings pp C idxs os = some r → r ≠ "sumcheck failed" := by
  intro idxs
  induction idxs with
  | nil =>
    intro os r h
    cases os <;> simp [check_op_openings] at h
  | cons i t ih =>
    intro os r h
    cases os with
    | nil => simp [check_op_openings] at h
    | cons o os2 =>
      unfold check_op_openings at h
      split_ifs at h <;> first
        | (injection h with h2; subst h2; decide)
        | exact ih os2 r h

theorem check_row_openings_reason (pp : KZGParams) (proof : Proof) :
    ∀ (is : List ℕ) (ros : List RowOpening) (r : String),
      check_row_openings pp proof is ros = some r → r ≠ "sumcheck failed" := by
  intro is
  induction is with
  | nil =>
    intro ros r h
    cases ros <;> simp [check_row_openings] at h
  | cons i t ih =>
    intro ros r h
    cases ros with
    | nil => simp [check_row_openings] at h
    | cons ro ros2 =>
      unfold check_row_openings at h
      simp only at h
      split_ifs at h <;>
        try (first | (subst h; decide) | (injection h with h2; subst h2; decide))
      cases hsem : row_semantic_check ro with
      | some r2 =>
        rw [hsem] at h
        injection h with h2
        subst h2
        exact row_semantic_check_reason ro r2 hsem
      | none =>
        rw [hsem] at h
        exact ih ros2 r h

/-- The post-sum-check stages never emit the reason string of the sum-check
stage. -/
theorem verify_tail_ne_sumcheck (pp : KZGParams) (proof : Proof) (seed : List ℕ)
    (k1 k2 : ℕ) : verify_tail pp proof seed k1 k2 ≠ VResult.reject "sumcheck failed" := by
  unfold verify_tail
  by_cases h1 : (derive_indices seed proof.trace_len k1).length ≠ proof.op_openings.length
  · rw [if_pos h1]; decide
  · rw [if_neg h1]
    cases hco : check_op_openings pp proof.op_comm (derive_indices seed proof.trace_len k1)
        proof.op_openings with
    | some r =>
      simp only
      intro hcontra
      injection hcontra with h2
      exact check_op_openings_reason pp proof.op_comm _ _ r hco h2
    | none =>
      simp only
      by_cases h2 : proof.trace_len < 2
      · rw [if_pos h2]; decide
      · rw [if_neg h2]
        by_cases h3 : proof.row_openings.length
            ≠ (derive_indices (sha256 (seed ++ [82])) (proof.trace_len - 1) k2).length
        · rw [if_pos h3]; decide
        · rw [if_neg h3]
          cases hcr : check_row_openings pp proof
              (derive_indices (sha256 (seed ++ [82])) (proof.trace_len - 1) k2)
              proof.row_openings with
          | some r =>
            simp only
            intro hcontra
            injection hcontra with h2
            exact check_row_openings_reason pp proof _ _ r hcr h2
          | none => simp only; decide

/-- C8, implicit: the verifier runs the sum-check seeded from the proof's own
`claimed_sum` field.  Whenever the header, binding, sizing and LUT checks
pass, `verify_proof` rejects with reason `"sumcheck failed"` exactly when the
round-consistency run started at `proof.sc.claimed_sum` returns `false` (the
later spot-check stages never use that reason string); no check ever requires
`claimed_sum = 0`, and a zero-round proof with nonzero claimed sum passes the
sum-check stage against any transcript. -/
theorem C8_sumcheck_seeded_from_claimed_sum :
    (∀ (pp : KZGParams) (cc : CodeCommit) (inst : PublicInstance) (proof : Proof) (B : Fr),
      kzg_commit pp (blinding_poly_from_domain_tag inst.domain_tag 8) = some B →
      proof.code_sha = cc.code_sha →
      proof.code_comm_kzg_sess = cc.code_comm_kzg_base + B →
      proof.domain_tag = inst.domain_tag →
      ¬(proof.trace_len = 0 ∨ proof.trace_pow2 = 0 ∨ proof.trace_pow2 < proof.trace_len) →
      ¬(¬(lutPresent proof = true) ∧ proof.lut_openings ≠ []) →
      (verify_proof pp cc inst proof = VResult.reject "sumcheck failed" ↔
        (sumcheck_verify proof.sc (headerTranscript proof) proof.sc.claimed_sum).1 = false)) ∧
    (∀ tr : Transcript, (SumcheckProof.mk 0 5 []).claimed_sum ≠ 0 ∧
      (sumcheck_verify (SumcheckProof.mk 0 5 []) tr (SumcheckProof.mk 0 5 []).claimed_sum).1
        = true) := by
  constructor
  · intro pp cc inst proof B hB h1 h2 h3 h4 h5
    unfold verify_proof
    rw [hB]
    simp only
    rw [if_neg (show ¬(proof.code_sha ≠ cc.code_sha) from fun hc => hc h1),
      if_neg (show ¬¬(proof.code_comm_kzg_sess = cc.code_comm_kzg_base + B) from
        fun hc => hc h2),
      if_neg (show ¬(proof.domain_tag ≠ inst.domain_tag) from fun hc => hc h3),
      if_neg h4, if_neg h5]
    cases hsv : (sumcheck_verify proof.sc (headerTranscript proof) proof.sc.claimed_sum).1 with
    | false =>
      rw [if_pos (by simp)]
      simp
    | true =>
      rw [if_neg (by simp)]
      constructor
      · intro hcontra
        exact absurd hcontra (verify_tail_ne_sumcheck pp proof _ 4 4)
      · intro hcontra
        simp at hcontra
  · intro tr
    exact ⟨by decide, rfl⟩

/-- A proof with nonzero claimed sum and zero sum-check rounds, header fields
matching the sample commitment and instance. -/
def selfConsistentProof : Proof :=
  Proof.mk [1] [2] [3]
    (0 + (kzg_commit (mkKZGParams 8 7) (blinding_poly_from_domain_tag [2] 8)).getD 0)
    0 0 0 0 0 0 0 0 0 0 1 1 (SumcheckProof.mk 0 5 []) [] [] [] 0

theorem C8_sumcheck_seeded_from_claimed_sum_witness :
    (verify_proof (mkKZGParams 8 7) (CodeCommit.mk [1] 0 1 "gdb") (PublicInstance.mk [2] [9])
        selfConsistentProof = VResult.reject "sumcheck failed" ↔
      (sumcheck_verify selfConsistentProof.sc (headerTranscript selfConsistentProof)
        selfConsistentProof.sc.claimed_sum).1 = false) ∧
    ((SumcheckProof.mk 0 5 []).claimed_sum ≠ 0 ∧
      (sumcheck_verify (SumcheckProof.mk 0 5 []) (Transcript.mk [])
        (SumcheckProof.mk 0 5 []).claimed_sum).1 = true) := by
  obtain ⟨B, hB⟩ := blinding_commit_some (mkKZGParams 8 7) [2] (by decide)
  refine ⟨?_, C8_sumcheck_seeded_from_claimed_sum.2 (Transcript.mk [])⟩
  have hsess : selfConsistentProof.code_comm_kzg_sess
      = (CodeCommit.mk [1] 0 1 "gdb").code_comm_kzg_base + B := by
    show 0 + (kzg_commit (mkKZGParams 8 7) (blinding_poly_from_domain_tag [2] 8)).getD 0
      = 0 + B
    rw [hB]
    rfl
  exact C8_sumcheck_seeded_from_claimed_sum.1 (mkKZGParams 8 7) (CodeCommit.mk [1] 0 1 "gdb")
    (PublicInstance.mk [2] [9]) selfConsistentProof B hB rfl hsess rfl (by decide) (by decide)
